import Mathlib

/-
  Verification of the cleaning-and-transform pipeline of the
  healthcare-data-engineering repository.

  Shallow embedding notes:
  * A pandas DataFrame is modelled as a `Table`: a list of column names
    plus a list of rows, each row a list of `Value`s (positionally
    aligned with the column list).
  * Cell values are `Value`: a missing marker (pandas NA/NaN), a string,
    a rational number (modelling the numeric dtypes), or a parsed date
    (modelling datetime64 values; time-of-day is not relevant to any
    cleaning rule and is not modelled).
  * `pd.to_numeric with errors coerce` is modelled by a decimal parser;
    scientific notation and locale formats are outside the modelled
    fragment (no claim depends on them).  `pd.to_datetime` is modelled
    by an ISO `YYYY-MM-DD` parser with calendar validity checking; other
    inputs coerce to the missing marker, as unparseable strings do in
    the source.
  * `astype(Int64)` raises in pandas on non-integral floats; the model
    maps that unreachable-in-the-claims case to the missing marker.
  * Rational arithmetic is routed through `Rat.divInt` (`qadd`, `qsub`)
    so that concrete tables evaluate inside the kernel; `qsub_eq_sub`
    identifies it with ordinary subtraction.
-/

namespace HC

/-- Gregorian calendar date (proleptic), used for datetime64 values. -/
structure DateV where
  year : Int
  month : Nat
  day : Nat
deriving DecidableEq, Repr

/-- A cell value of a DataFrame. -/
inductive Value where
  | na : Value
  | str : String → Value
  | num : ℚ → Value
  | date : DateV → Value
deriving DecidableEq, Repr

/-- Kernel-reducible addition on rationals (equal to `+`, see `qadd_eq_add`). -/
def qadd (a b : ℚ) : ℚ :=
  Rat.divInt (a.num * (b.den : Int) + b.num * (a.den : Int)) ((a.den : Int) * (b.den : Int))

/-- Kernel-reducible subtraction on rationals (equal to `-`, see `qsub_eq_sub`). -/
def qsub (a b : ℚ) : ℚ :=
  Rat.divInt (a.num * (b.den : Int) - b.num * (a.den : Int)) ((a.den : Int) * (b.den : Int))

/- ------------------------------------------------------------------
   String helpers (whitespace trim, case mapping, Python str.title).
   Implemented on the character list so concrete tables evaluate in
   the kernel.
   ------------------------------------------------------------------ -/

def isWSChar (c : Char) : Bool :=
  c == ' ' || c == '\t' || c == '\n' || c == '\r'

def dropLeadWS : List Char → List Char
  | [] => []
  | c :: cs => if isWSChar c then dropLeadWS cs else c :: cs

/-- Model of `str.strip()` / Python `.strip()`. -/
def sstrip (s : String) : String :=
  ⟨(dropLeadWS (dropLeadWS s.data.reverse).reverse)⟩

/-- A character list with no leading whitespace (or empty). -/
def headOkWS : List Char → Bool
  | [] => true
  | c :: _ => !isWSChar c

/-- Model of `str.lower()`. -/
def slower (s : String) : String := ⟨s.data.map Char.toLower⟩

/-- Model of `str.upper()`. -/
def supper (s : String) : String := ⟨s.data.map Char.toUpper⟩

/-- Model of Python `str.title()`: the first letter of each run of
letters is uppercased, subsequent letters lowercased.  The boolean
argument records whether the previous character was a letter. -/
def titleChars : Bool → List Char → List Char
  | _, [] => []
  | prev, c :: cs =>
      (if c.isAlpha then (if prev then c.toLower else c.toUpper) else c)
        :: titleChars c.isAlpha cs

def stitle (s : String) : String := ⟨titleChars false s.data⟩

/- ------------------------------------------------------------------
   Numeric parsing: model of `pd.to_numeric with errors coerce` on the
   decimal fragment (optional sign, digits, optional fractional part,
   surrounding whitespace).
   ------------------------------------------------------------------ -/

def digitVal (c : Char) : Nat := c.toNat - 48

def readDigits : List Char → Option Nat
  | [] => some 0
  | c :: cs =>
      if c.isDigit then
        (readDigits cs).map (fun n => digitVal c * 10 ^ cs.length + n)
      else none

def allDigits (cs : List Char) : Bool := cs.all Char.isDigit

def parseDecimalCore (cs : List Char) : Option ℚ :=
  let intPart := cs.takeWhile Char.isDigit
  let rest := cs.dropWhile Char.isDigit
  match rest with
  | [] =>
      if intPart.isEmpty then none
      else (readDigits intPart).map (fun n => Rat.divInt n 1)
  | '.' :: fracPart =>
      if allDigits fracPart && !(intPart.isEmpty && fracPart.isEmpty) then
        match readDigits intPart, readDigits fracPart with
        | some i, some f =>
            some (Rat.divInt (i * 10 ^ fracPart.length + f) (10 ^ fracPart.length))
        | _, _ => none
      else none
  | _ => none

def parseDecimal (s : String) : Option ℚ :=
  match dropLeadWS (dropLeadWS s.data.reverse).reverse with
  | [] => none
  | '-' :: cs => (parseDecimalCore cs).map (fun q => -q)
  | '+' :: cs => parseDecimalCore cs
  | cs => parseDecimalCore cs

/- ------------------------------------------------------------------
   Date parsing and components: model of `pd.to_datetime(errors :=
   coerce)` on the ISO fragment, and of the `.dt` accessors used by the
   date cleaner.
   ------------------------------------------------------------------ -/

def isLeap (y : Int) : Bool :=
  (y % 4 == 0 && y % 100 != 0) || y % 400 == 0

def daysInMonth (y : Int) (m : Nat) : Nat :=
  if m = 2 then (if isLeap y then 29 else 28)
  else if m == 4 || m == 6 || m == 9 || m == 11 then 30
  else 31

def validDate (y : Int) (m d : Nat) : Bool :=
  decide (1 ≤ m) && decide (m ≤ 12) && decide (1 ≤ d) && decide (d ≤ daysInMonth y m)

/-- Parse an ISO `YYYY-MM-DD` date (optionally followed by a space and a
time-of-day, which is ignored, as when a cleaned CSV is re-read). -/
def parseDateChars (cs : List Char) : Option DateV :=
  let cs := cs.takeWhile (fun c => c != ' ')
  match cs.splitOn '-' with
  | [ys, ms, ds] =>
      if allDigits ys && allDigits ms && allDigits ds
          && !ys.isEmpty && !ms.isEmpty && !ds.isEmpty then
        match readDigits ys, readDigits ms, readDigits ds with
        | some y, some m, some d =>
            if validDate y m d then some ⟨y, m, d⟩ else none
        | _, _, _ => none
      else none
  | _ => none

def parseDate (s : String) : Option DateV :=
  parseDateChars (dropLeadWS (dropLeadWS s.data.reverse).reverse)

/-- Cumulative day count before the start of month `m` in a
non-leap year. -/
def monthOffset : Nat → Nat
  | 1 => 0 | 2 => 31 | 3 => 59 | 4 => 90 | 5 => 120 | 6 => 151
  | 7 => 181 | 8 => 212 | 9 => 243 | 10 => 273 | 11 => 304 | _ => 334

def dayOfYear (d : DateV) : Nat :=
  monthOffset d.month + (if isLeap d.year && 3 ≤ d.month then 1 else 0) + d.day

/-- Day number of a proleptic Gregorian date counted from 0000-12-31,
so that 0001-01-01 is day 1 (a Monday). -/
def rataDie (d : DateV) : Int :=
  let y := d.year - 1
  365 * y + y.fdiv 4 - y.fdiv 100 + y.fdiv 400 + dayOfYear d

def dayNames : List String :=
  ["Sunday", "Monday", "Tuesday", "Wednesday", "Thursday", "Friday", "Saturday"]

/-- Model of `Series.dt.day_name()`. -/
def dayNameOf (d : DateV) : String :=
  dayNames.getD ((rataDie d).toNat % 7) "Sunday"

def quarterOf (m : Nat) : Nat := (m + 2) / 3

/- ------------------------------------------------------------------
   Value-level transforms used by the cleaning scripts.
   ------------------------------------------------------------------ -/

def natStr (n : Nat) : String := ⟨Nat.toDigits 10 n⟩

def intStr (i : Int) : String :=
  if i < 0 then "-" ++ natStr i.natAbs else natStr i.natAbs

/-- Rendering of a number as a string (`astype(string)` on a numeric
cell).  Non-integral rationals are rendered as `num/den`; the exact
float formatting is not load-bearing for any claim. -/
def numStr (q : ℚ) : String :=
  if q.den = 1 then intStr q.num else intStr q.num ++ "/" ++ natStr q.den

def pad2 (n : Nat) : String := if n < 10 then "0" ++ natStr n else natStr n

def dateStr (d : DateV) : String :=
  intStr d.year ++ "-" ++ pad2 d.month ++ "-" ++ pad2 d.day

/-- Model of `astype(string)` on a cell: missing stays missing, other
values are rendered as strings. -/
def toStrV : Value → Value
  | .na => .na
  | .str s => .str s
  | .num q => .str (numStr q)
  | .date d => .str (dateStr d)

/-- Model of `.astype(string).str.strip()` on a cell. -/
def strStripV (v : Value) : Value :=
  match toStrV v with
  | .str s => .str (sstrip s)
  | w => w

/-- Model of `.str.upper()` on a string-dtype cell. -/
def upperV : Value → Value
  | .str s => .str (supper s)
  | v => v

/-- Model of `.str.title()` on a string-dtype cell. -/
def titleV : Value → Value
  | .str s => .str (stitle s)
  | v => v

/-- Model of `pd.to_numeric with errors coerce` on a cell.  Strings are
parsed as decimals, numbers pass through, everything unparseable
(including the missing marker) coerces to missing. -/
def toNumericV : Value → Value
  | .num q => .num q
  | .str s => match parseDecimal s with
      | some q => .num q
      | none => .na
  | _ => .na

/-- Model of `fillna(x)` on a cell. -/
def fillnaV (x : Value) : Value → Value
  | .na => x
  | v => v

/-- Model of `clip` at lower bound 0 on a cell (missing stays missing). -/
def clipLower0V : Value → Value
  | .num q => .num (max q 0)
  | v => v

/-- Truncation toward zero, as Python `int()` / numpy `astype(int)`. -/
def truncQ (q : ℚ) : Int :=
  if 0 ≤ q then q.floor else -((-q).floor)

/-- Model of `.astype(int)` on a numeric cell. -/
def toIntTruncV : Value → Value
  | .num q => .num (truncQ q)
  | v => v

/-- Model of `.astype(Int64)` on a numeric (nullable) cell.  In pandas a
non-integral float raises here; that case is unreachable in every
claim and is modelled as missing. -/
def toInt64V : Value → Value
  | .num q => if q.den = 1 then .num q else .na
  | .na => .na
  | v => v

/-- Model of `clip` to the range [lo, hi] on a numeric cell. -/
def clipRangeV (lo hi : ℚ) : Value → Value
  | .num q => .num (min (max q lo) hi)
  | v => v

/-- Model of `Series.round()`: half-to-even rounding, as numpy. -/
def roundHalfEven (q : ℚ) : Int :=
  let f := q.floor
  let r := qsub q (Rat.divInt f 1)
  if r < Rat.divInt 1 2 then f
  else if Rat.divInt 1 2 < r then f + 1
  else if f % 2 = 0 then f else f + 1

def roundV : Value → Value
  | .num q => .num (roundHalfEven q)
  | v => v

/-- Model of `pd.to_datetime with errors coerce` on a cell.  Datetime
cells pass through, strings are parsed (ISO fragment), everything else
coerces to missing (numeric epoch timestamps are outside the modelled
fragment; no claim depends on them). -/
def toDatetimeV : Value → Value
  | .date d => .date d
  | .str s => match parseDate s with
      | some d => .date d
      | none => .na
  | _ => .na

/-- Insertion sort on rationals, used for the median. -/
def insertQ (x : ℚ) : List ℚ → List ℚ
  | [] => [x]
  | y :: ys => if x ≤ y then x :: y :: ys else y :: insertQ x ys

def sortQ : List ℚ → List ℚ
  | [] => []
  | x :: xs => insertQ x (sortQ xs)

/-- Model of `Series.median()` over the non-missing values. -/
def medianQ (l : List ℚ) : ℚ :=
  let s := sortQ l
  let n := s.length
  if n % 2 = 1 then s.getD (n / 2) 0
  else Rat.divInt (qadd (s.getD (n / 2 - 1) 0) (s.getD (n / 2) 0)).num
        ((qadd (s.getD (n / 2 - 1) 0) (s.getD (n / 2) 0)).den * 2)

/- ------------------------------------------------------------------
   Tables: the DataFrame model.
   ------------------------------------------------------------------ -/

/-- A DataFrame: a list of column names and a list of rows, each row a
list of cells positionally aligned with the column list. -/
structure Table where
  cols : List String
  rows : List (List Value)
deriving DecidableEq, Repr

/-- Index of the first column with the given name (`df.columns`). -/
def colIdx (c : String) : List String → Option Nat
  | [] => none
  | c' :: cs => if c' = c then some 0 else (colIdx c cs).map (· + 1)

def hasCol (c : String) (t : Table) : Bool := (colIdx c t.cols).isSome

/-- Cell of a row at a column index; out-of-range reads give missing. -/
def getCell : List Value → Nat → Value
  | [], _ => .na
  | x :: _, 0 => x
  | _ :: xs, n + 1 => getCell xs n

/-- Replace the cell at a column index (no-op when out of range). -/
def setCell : List Value → Nat → Value → List Value
  | [], _, _ => []
  | _ :: xs, 0, v => v :: xs
  | x :: xs, n + 1, v => x :: setCell xs n v

/-- Model of `df[c] = df[c].map(f)`-style column assignment, guarded by
column presence (`if c in df.columns`, which every cleaning rule in the
source checks). -/
def mapCol (f : Value → Value) (c : String) (t : Table) : Table :=
  match colIdx c t.cols with
  | none => t
  | some i => ⟨t.cols, t.rows.map (fun r => setCell r i (f (getCell r i)))⟩

/-- Values of a column, in row order (empty when the column is absent). -/
def colVals (t : Table) (c : String) : List Value :=
  match colIdx c t.cols with
  | none => []
  | some i => t.rows.map (fun r => getCell r i)

/-- Well-formedness: every row has one cell per column. -/
def WF (t : Table) : Prop := ∀ r ∈ t.rows, r.length = t.cols.length

instance (t : Table) : Decidable (WF t) := List.decidableBAll _ t.rows

/-- Key of a row for `drop_duplicates`: the full row when `subset` is
`none`, else the projection to the subset columns. -/
def rowKey (t : Table) (subset : Option (List String)) (r : List Value) : List Value :=
  match subset with
  | none => r
  | some ks => ks.map (fun k =>
      match colIdx k t.cols with
      | some i => getCell r i
      | none => .na)

/-- First-occurrence deduplication by key (`drop_duplicates` keeps the
first row of each key group; pandas treats missing keys as equal, as
does `DecidableEq Value`). -/
def dedupAux {α : Type} [DecidableEq α] (f : List Value → α) :
    List α → List (List Value) → List (List Value)
  | _, [] => []
  | seen, r :: rs =>
      if f r ∈ seen then dedupAux f seen rs
      else r :: dedupAux f (f r :: seen) rs

/-- Model of `dedupe` in `etl_2_data_cleaning.py` (the log side effect
is not modelled). -/
def dedupe (t : Table) (subset : Option (List String)) : Table :=
  ⟨t.cols, dedupAux (rowKey t subset) [] t.rows⟩

/-- Model of trimming the header: `df.columns = [c.strip() for c in df.columns]`. -/
def trimHeader (t : Table) : Table := ⟨t.cols.map sstrip, t.rows⟩

def nullTokens : List String := ["", " ", "NA", "N/A", "NULL", "null", "None", "-"]

/-- Replace null-token strings by the missing marker (`replace(NULL_TOKENS, NA)`). -/
def standardizeV (v : Value) : Value :=
  match v with
  | .str s => if s ∈ nullTokens then .na else v
  | _ => v

/-- Model of `standardize_missing` in `etl_2_data_cleaning.py`. -/
def standardize_missing (t : Table) (cs : List String) : Table :=
  cs.foldl (fun t c => mapCol standardizeV c t) t

/-- The per-cell composite of `clip_non_negative`:
`to_numeric(coerce).fillna(0).clip(0)`. -/
def moneyClipV (v : Value) : Value := clipLower0V (fillnaV (.num 0) (toNumericV v))

/-- Model of `clip_non_negative` in `etl_2_data_cleaning.py`. -/
def clip_non_negative (t : Table) (cs : List String) : Table :=
  cs.foldl (fun t c => mapCol moneyClipV c t) t

/-- Kernel-reducible embedding of an integer into the rationals. -/
def qofInt (i : Int) : ℚ := Rat.divInt i 1

/- ------------------------------------------------------------------
   Entity cleaners (etl_2_data_cleaning.py).  Each is split into the
   row/column transformation part (`...Pre`) followed by the final
   `dedupe`, exactly as in the source.
   ------------------------------------------------------------------ -/

/-- Composite of `pd.to_numeric with errors coerce.astype(Int64)`,
used for every surrogate-key column. -/
def numericInt64V (v : Value) : Value := toInt64V (toNumericV v)

/-- Model of the `where(isin([Male, Female]))` with Unknown as the fallback rule. -/
def genderWhereV (v : Value) : Value :=
  if v = .str "Male" ∨ v = .str "Female" then v else .str "Unknown"

/-- The `age` rule of `clean_patients`: coerce to numeric, fill missing
with the integer-truncated column median (0 when no value is valid),
truncate to int and clip to [0, 120]. -/
def ageStep (t : Table) : Table :=
  match colIdx "age" t.cols with
  | none => t
  | some i =>
      let t1 := mapCol toNumericV "age" t
      let vals := t1.rows.filterMap (fun r =>
        match getCell r i with
        | .num q => some q
        | _ => none)
      let med : Int := if vals.isEmpty then 0 else truncQ (medianQ vals)
      mapCol (fun v => clipRangeV 0 120 (toIntTruncV (fillnaV (.num (qofInt med)) v))) "age" t1

/-- The transformation part of `clean_patients`, before deduplication. -/
def patientsPre (df : Table) : Table :=
  let t := trimHeader df
  let t := standardize_missing t ["patient_name", "insurance_type", "city", "gender"]
  let t := mapCol strStripV "patient_name" t
  let t := mapCol strStripV "gender" t
  let t := mapCol strStripV "city" t
  let t := mapCol strStripV "insurance_type" t
  let t := mapCol (fillnaV (.str "Uninsured")) "insurance_type" t
  let t := ageStep t
  let t := mapCol titleV "gender" t
  let t := mapCol genderWhereV "gender" t
  mapCol numericInt64V "patient_id" t

/-- Model of `clean_patients` in `etl_2_data_cleaning.py`. -/
def clean_patients (df : Table) : Table :=
  let t := patientsPre df
  dedupe t (if hasCol "patient_id" t then some ["patient_id"] else none)

/-- The `status` rule of `clean_doctors`. -/
def statusWhereV (v : Value) : Value :=
  if v = .str "Active" ∨ v = .str "On Leave" then v else .str "Active"

/-- Composite `to_numeric(coerce).fillna(0).astype(int).clip(0)`,
used for `years_experience` and `floor_number`. -/
def nonNegIntV (v : Value) : Value :=
  clipLower0V (toIntTruncV (fillnaV (.num 0) (toNumericV v)))

/-- The transformation part of `clean_doctors`, before deduplication. -/
def doctorsPre (df : Table) : Table :=
  let t := trimHeader df
  let t := standardize_missing t ["doctor_name", "department_name", "specialization", "status"]
  let t := mapCol strStripV "doctor_name" t
  let t := mapCol strStripV "department_name" t
  let t := mapCol strStripV "specialization" t
  let t := mapCol strStripV "status" t
  let t := mapCol statusWhereV "status" t
  let t := mapCol nonNegIntV "years_experience" t
  mapCol numericInt64V "doctor_id" t

/-- Model of `clean_doctors` in `etl_2_data_cleaning.py`. -/
def clean_doctors (df : Table) : Table :=
  let t := doctorsPre df
  dedupe t (if hasCol "doctor_id" t then some ["doctor_id"] else none)

/-- The transformation part of `clean_departments`, before deduplication. -/
def departmentsPre (df : Table) : Table :=
  let t := trimHeader df
  let t := standardize_missing t ["department_name", "head_doctor"]
  let t := mapCol strStripV "department_name" t
  let t := mapCol strStripV "head_doctor" t
  let t := mapCol numericInt64V "department_id" t
  mapCol nonNegIntV "floor_number" t

/-- Model of `clean_departments` in `etl_2_data_cleaning.py`. -/
def clean_departments (df : Table) : Table :=
  let t := departmentsPre df
  dedupe t (if hasCol "department_id" t then some ["department_id"] else none)

/-- The transformation part of `clean_diagnoses`, before deduplication. -/
def diagnosesPre (df : Table) : Table :=
  let t := trimHeader df
  let t := standardize_missing t ["diagnosis_code", "diagnosis_name"]
  let t := mapCol (fun v => upperV (strStripV v)) "diagnosis_code" t
  let t := mapCol strStripV "diagnosis_name" t
  mapCol numericInt64V "diagnosis_id" t

/-- Model of `clean_diagnoses` in `etl_2_data_cleaning.py`. -/
def clean_diagnoses (df : Table) : Table :=
  let t := diagnosesPre df
  dedupe t (if hasCol "diagnosis_code" t then some ["diagnosis_code"] else none)

/-- Rebuild a derived date-component column from the parsed `date`
column (only rows whose date parsed remain when this runs; the
non-date fallback is unreachable there). -/
def rebuildComp (srcIdx : Nat) (c : String) (f : DateV → Value) (t : Table) : Table :=
  match colIdx c t.cols with
  | none => t
  | some j =>
      ⟨t.cols, t.rows.map (fun r =>
        setCell r j (match getCell r srcIdx with
          | .date d => f d
          | _ => .na))⟩

def yearV (d : DateV) : Value := .num (qofInt d.year)

def monthV (d : DateV) : Value := .num (qofInt d.month)

def dayV (d : DateV) : Value := .num (qofInt d.day)

def quarterV (d : DateV) : Value := .num (qofInt (quarterOf d.month))

def dayNameV (d : DateV) : Value := .str (dayNameOf d)

/-- The derived date components rebuilt by `clean_dates`, paired with
their column names, in the order the source reassigns them. -/
def dateComps : List (String × (DateV → Value)) :=
  [("year", yearV), ("month", monthV), ("day", dayV),
   ("quarter", quarterV), ("day_name", dayNameV)]

/-- The `date`-guarded block of `clean_dates`: parse the date column,
drop rows that failed to parse, and recompute the derived component
columns from the parsed date, in source order. -/
def dateBlock (t : Table) : Table :=
  match colIdx "date" t.cols with
  | none => t
  | some i =>
      let t1 := mapCol toDatetimeV "date" t
      let t2 : Table := ⟨t1.cols, t1.rows.filter (fun r => getCell r i != Value.na)⟩
      dateComps.foldl (fun t p => rebuildComp i p.1 p.2 t) t2

/-- The standardization stage of `clean_dates`: header trim plus
missing-value normalization of the component columns. -/
def datesStd (df : Table) : Table :=
  standardize_missing (trimHeader df) ["year", "month", "day", "quarter", "day_name"]

/-- The transformation part of `clean_dates`, before deduplication. -/
def datesPre (df : Table) : Table :=
  mapCol numericInt64V "date_id" (dateBlock (datesStd df))

/-- Model of `clean_dates` in `etl_2_data_cleaning.py`.  Note that the
final deduplication is by the `date` column (not by `date_id`). -/
def clean_dates (df : Table) : Table :=
  let t := datesPre df
  dedupe t (if hasCol "date" t then some ["date"] else none)

def moneyCols : List String :=
  ["total_cost", "insurance_coverage", "patient_payment", "visit_duration_days"]

/-- Subtraction of numeric cells; anything else gives missing. -/
def vsub (a b : Value) : Value :=
  match a, b with
  | .num x, .num y => .num (qsub x y)
  | _, _ => .na

/-- The payment-reconciliation block of `clean_visits`: for rows whose
`patient_payment` is missing, set it to
`clip(total_cost - insurance_coverage, lower := 0)`, then re-clip the
whole column; guarded on all three columns being present. -/
def reconcilePayment (t : Table) : Table :=
  match colIdx "patient_payment" t.cols, colIdx "total_cost" t.cols,
      colIdx "insurance_coverage" t.cols with
  | some ip, some itc, some iic =>
      let rows1 := t.rows.map (fun r =>
        if getCell r ip = Value.na then
          setCell r ip (clipLower0V (vsub (getCell r itc) (getCell r iic)))
        else r)
      mapCol clipLower0V "patient_payment" ⟨t.cols, rows1⟩
  | _, _, _ => t

/-- The `satisfaction_rating` rule:
`to_numeric(coerce).fillna(3).round().astype(int).clip(1, 5)`. -/
def satisfactionV (v : Value) : Value :=
  clipRangeV 1 5 (toIntTruncV (roundV (fillnaV (.num 3) (toNumericV v))))

/-- The `visit_type` rule: the identity map on the three known values,
everything else (including missing) becomes the default. -/
def visitTypeV (v : Value) : Value :=
  if v = .str "Rawat Jalan" ∨ v = .str "Rawat Inap" ∨ v = .str "IGD" then v
  else .str "Rawat Jalan"

/-- The first stages of `clean_visits`, up to and including
`clip_non_negative` on the monetary/duration columns. -/
def visitsClipped (df : Table) : Table :=
  let t := trimHeader df
  let t := mapCol strStripV "department_name" t
  let t := mapCol strStripV "diagnosis_code" t
  let t := mapCol strStripV "visit_type" t
  let t := mapCol toDatetimeV "visit_date" t
  clip_non_negative t moneyCols

/-- The transformation part of `clean_visits`, before deduplication. -/
def visitsPre (df : Table) : Table :=
  let t := visitsClipped df
  let t := reconcilePayment t
  let t := mapCol satisfactionV "satisfaction_rating" t
  let t := mapCol visitTypeV "visit_type" t
  mapCol numericInt64V "visit_id" t

/-- Model of `clean_visits` in `etl_2_data_cleaning.py`. -/
def clean_visits (df : Table) : Table :=
  let t := visitsPre df
  dedupe t (if hasCol "visit_id" t then some ["visit_id"] else none)

/- ------------------------------------------------------------------
   Dimension builder (transform_dimensions, etl_3_data_transform.py).
   ------------------------------------------------------------------ -/

def dimPatientCols : List String :=
  ["patient_id", "patient_name", "gender", "age", "city", "insurance_type"]

def dimDoctorCols : List String :=
  ["doctor_id", "doctor_name", "department_name", "specialization", "status",
   "years_experience"]

def dimDepartmentCols : List String :=
  ["department_id", "department_name", "head_doctor", "floor_number"]

def dimDiagnosisCols : List String :=
  ["diagnosis_id", "diagnosis_name", "diagnosis_code"]

def dimDateCols : List String :=
  ["date_id", "date", "year", "month", "day", "quarter", "day_name"]

instance exceptDecEq {e a : Type} [DecidableEq e] [DecidableEq a] :
    DecidableEq (Except e a) := fun x y =>
  match x, y with
  | .error u, .error v =>
      if h : u = v then isTrue (by rw [h])
      else isFalse (fun hh => h (Except.error.inj hh))
  | .ok u, .ok v =>
      if h : u = v then isTrue (by rw [h])
      else isFalse (fun hh => h (Except.ok.inj hh))
  | .error _, .ok _ => isFalse (fun hh => Except.noConfusion hh)
  | .ok _, .error _ => isFalse (fun hh => Except.noConfusion hh)

/-- Model of the projection `df[[c1, ..., ck]].copy()`: raises a
`KeyError` (here: the error value carrying the first missing column
name) when a requested column is absent. -/
def projectCols (t : Table) (cs : List String) : Except String Table :=
  match cs.find? (fun c => !(hasCol c t)) with
  | some c => .error c
  | none =>
      .ok ⟨cs, t.rows.map (fun r => cs.map (fun c =>
        match colIdx c t.cols with
        | some i => getCell r i
        | none => Value.na))⟩

/-- Model of `transform_dimensions`: project each cleaned entity table
onto its fixed dimension column list.  The source has no exception
handling here, so the first failing projection propagates and nothing
is saved (the save loop runs only after all five projections). -/
def transform_dimensions (pat doc dep diag dts : Table) :
    Except String (List (String × Table)) := do
  let p ← projectCols pat dimPatientCols
  let d ← projectCols doc dimDoctorCols
  let dp ← projectCols dep dimDepartmentCols
  let dg ← projectCols diag dimDiagnosisCols
  let dt ← projectCols dts dimDateCols
  pure [("dim_patients", p), ("dim_doctors", d), ("dim_departments", dp),
        ("dim_diagnoses", dg), ("dim_dates", dt)]

/- ------------------------------------------------------------------
   Fact resolver (transform_fact, etl_3_data_transform.py), modelled on
   typed rows carrying the cleaned-visit schema (the columns the source
   reads and projects; it raises on any other schema).
   ------------------------------------------------------------------ -/

/-- A cleaned visit row, as read from `visits_clean.csv`. -/
structure VisitRow where
  visit_id : Value
  patient_id : Value
  doctor_id : Value
  department_name : Value
  diagnosis_code : Value
  visit_date : Value
  visit_type : Value
  visit_duration_days : Value
  total_cost : Value
  insurance_coverage : Value
  patient_payment : Value
  satisfaction_rating : Value
deriving DecidableEq, Repr

/-- A doctor dimension row (fields used by the fact join). -/
structure DoctorRow where
  doctor_id : Value
  department_name : Value
deriving DecidableEq, Repr

/-- A department dimension row (fields used by the fact join). -/
structure DeptRow where
  department_id : Value
  department_name : Value
deriving DecidableEq, Repr

/-- A diagnosis dimension row (fields used by the fact join). -/
structure DiagRow where
  diagnosis_id : Value
  diagnosis_code : Value
deriving DecidableEq, Repr

/-- A fact row, in the projected output column order. -/
structure FactRow where
  visit_id : Value
  patient_id : Value
  doctor_id : Value
  department_id : Value
  diagnosis_id : Value
  date_id : Value
  visit_type : Value
  visit_duration_days : Value
  total_cost : Value
  insurance_coverage : Value
  patient_payment : Value
  satisfaction_rating : Value
deriving DecidableEq, Repr

/-- Model of `make_date_id`: `to_datetime(coerce).strftime(YYYYMMDD)`
as a nullable integer. -/
def makeDateId (v : Value) : Value :=
  match toDatetimeV v with
  | .date d => .num (qofInt (d.year * 10000 + (d.month : Int) * 100 + (d.day : Int)))
  | _ => .na

/-- Stage after `date_id` derivation. -/
structure VisitDated extends VisitRow where
  date_id : Value
deriving DecidableEq, Repr

/-- Stage after the diagnosis merge. -/
structure VisitDiag extends VisitDated where
  diagnosis_id : Value
deriving DecidableEq, Repr

/-- Stage after the doctor merge.  Because the cleaned visit table
already has a `department_name` column and the merge uses
`suffixes (empty, doc)`, the doctor-side department name lands in a
new `department_name_doc` column; the visit's own `department_name` is
untouched. -/
structure VisitDoc extends VisitDiag where
  department_name_doc : Value
deriving DecidableEq, Repr

/-- Stage after the department merge (joined on the visit's own
`department_name` column). -/
structure VisitDept extends VisitDoc where
  department_id : Value
deriving DecidableEq, Repr

/-- `df_vis[date_id] = make_date_id(df_vis[visit_date])`. -/
def withDateId (vs : List VisitRow) : List VisitDated :=
  vs.map (fun v => { toVisitRow := v, date_id := makeDateId v.visit_date })

/-- Left merge with `dim_diagnoses[[diagnosis_code, diagnosis_id]]` on
`diagnosis_code`: each left row yields one row per matching right row,
or a single row with missing `diagnosis_id` when there is no match. -/
def mergeDiag (l : List VisitDated) (diags : List DiagRow) : List VisitDiag :=
  l.flatMap (fun v =>
    match diags.filter (fun d => d.diagnosis_code == v.diagnosis_code) with
    | [] => [{ toVisitDated := v, diagnosis_id := Value.na }]
    | ms => ms.map (fun d => { toVisitDated := v, diagnosis_id := d.diagnosis_id }))

/-- Left merge with `dim_doctors[[doctor_id, department_name]]` on
`doctor_id` with `suffixes (empty, doc)`. -/
def mergeDoc (l : List VisitDiag) (docs : List DoctorRow) : List VisitDoc :=
  l.flatMap (fun v =>
    match docs.filter (fun d => d.doctor_id == v.doctor_id) with
    | [] => [{ toVisitDiag := v, department_name_doc := Value.na }]
    | ms => ms.map (fun d => { toVisitDiag := v, department_name_doc := d.department_name }))

/-- Left merge with `dim_departments[[department_name, department_id]]`
on `department_name` — which, after the suffix renaming, is the
visit's own department name, not the doctor-derived one. -/
def mergeDept (l : List VisitDoc) (deps : List DeptRow) : List VisitDept :=
  l.flatMap (fun v =>
    match deps.filter (fun d => d.department_name == v.department_name) with
    | [] => [{ toVisitDoc := v, department_id := Value.na }]
    | ms => ms.map (fun d => { toVisitDoc := v, department_id := d.department_id }))

/-- Final projection onto the fact column order (this drops the
`department_name_doc` column produced by the doctor merge). -/
def projectFact (l : List VisitDept) : List FactRow :=
  l.map (fun v =>
    { visit_id := v.visit_id, patient_id := v.patient_id,
      doctor_id := v.doctor_id, department_id := v.department_id,
      diagnosis_id := v.diagnosis_id, date_id := v.date_id,
      visit_type := v.visit_type, visit_duration_days := v.visit_duration_days,
      total_cost := v.total_cost, insurance_coverage := v.insurance_coverage,
      patient_payment := v.patient_payment,
      satisfaction_rating := v.satisfaction_rating })

/-- Model of `transform_fact` in `etl_3_data_transform.py`. -/
def transform_fact (visits : List VisitRow) (diags : List DiagRow)
    (docs : List DoctorRow) (deps : List DeptRow) : List FactRow :=
  projectFact (mergeDept (mergeDoc (mergeDiag (withDateId visits) diags) docs) deps)

/- ------------------------------------------------------------------
   Spec-side normal forms, stated for comparison with the embedded
   implementation, and concrete tables used by witnesses and
   counterexamples.
   ------------------------------------------------------------------ -/

/-- Closed normal form of the gender rule as the cleaner realises it:
null tokens and non-strings become Unknown; any other string is
whitespace-trimmed and title-cased, kept when that yields Male or
Female, and otherwise becomes Unknown. -/
def genderNorm (v : Value) : Value :=
  match v with
  | .str s =>
      if s ∈ nullTokens then .str "Unknown"
      else if stitle (sstrip s) = "Male" ∨ stitle (sstrip s) = "Female" then
        .str (stitle (sstrip s))
      else .str "Unknown"
  | _ => .str "Unknown"

/-- The diagnosis keys a visit can receive from the diagnosis merge:
the ids of the dimension rows matching its code, or a single missing
value when none match. -/
def diagIdsFor (v : VisitRow) (diags : List DiagRow) : List Value :=
  match diags.filter (fun d => d.diagnosis_code == v.diagnosis_code) with
  | [] => [Value.na]
  | ms => ms.map (fun d => d.diagnosis_id)

/-- The department keys a visit can receive from the department merge:
resolved from the visit's own `department_name`, or missing when no
dimension row carries that name. -/
def deptIdsFor (v : VisitRow) (deps : List DeptRow) : List Value :=
  match deps.filter (fun d => d.department_name == v.department_name) with
  | [] => [Value.na]
  | ms => ms.map (fun d => d.department_id)

/-- The two-hop department resolution as the spec words it (doctor_id
to the doctor's department_name, then that name to department_id),
written here only to compare it with the implemented join. -/
def twoHopDeptId (v : VisitRow) (docs : List DoctorRow) (deps : List DeptRow) : Value :=
  match docs.find? (fun d => d.doctor_id == v.doctor_id) with
  | some dr =>
      match deps.find? (fun dp => dp.department_name == dr.department_name) with
      | some dp => dp.department_id
      | none => Value.na
  | none => Value.na

/-- Visit row whose `patient_payment` is missing while `total_cost` and
`insurance_coverage` are 100 and 30 (claim C1's reconciliation case). -/
def vPayEx : Table :=
  ⟨["visit_id", "total_cost", "insurance_coverage", "patient_payment"],
   [[.str "1", .str "100", .str "30", Value.na]]⟩

/-- Cleaned patients table lacking the `gender` column required by the
dimension projection. -/
def patNoGenderEx : Table :=
  ⟨["patient_id", "patient_name", "age", "city", "insurance_type"], []⟩

def docFullEx : Table := ⟨dimDoctorCols, []⟩

def depFullEx : Table := ⟨dimDepartmentCols, []⟩

def diagFullEx : Table := ⟨dimDiagnosisCols, []⟩

def datesFullEx : Table := ⟨dimDateCols, []⟩

/-- Visit whose own `department_name` (Surgery) disagrees with its
doctor's department (Cardiology). -/
def vHop : VisitRow :=
  { visit_id := .num 1, patient_id := .num 1, doctor_id := .num 1,
    department_name := .str "Surgery", diagnosis_code := .str "X99",
    visit_date := Value.na, visit_type := .str "IGD",
    visit_duration_days := .num 1, total_cost := .num 100,
    insurance_coverage := .num 50, patient_payment := .num 50,
    satisfaction_rating := .num 3 }

def docHop : DoctorRow := { doctor_id := .num 1, department_name := .str "Cardiology" }

def depSurgery : DeptRow := { department_id := .num 10, department_name := .str "Surgery" }

def depCardio : DeptRow := { department_id := .num 20, department_name := .str "Cardiology" }

/-- Dates table with a duplicated `date_id` over two distinct dates. -/
def datesDupIdEx : Table :=
  ⟨["date_id", "date"],
   [[.str "5", .str "2024-01-01"], [.str "5", .str "2024-01-02"]]⟩

/-- Patients table with a duplicated key, for the C4 witness. -/
def patKeyW : Table :=
  ⟨["patient_id"], [[.str "7"], [.str "7"], [.str "8"]]⟩

/-- Dates table whose two rows both parse to the same date. -/
def datesDupEx : Table :=
  ⟨["date", "year"],
   [[.str "2024-03-05", .str "1999"], [.str "2024-03-05", .str "x"]]⟩

/-- Dates table mixing a parseable and an unparseable date, with stale
component columns. -/
def datesMixedW : Table :=
  ⟨["date", "year", "day_name"],
   [[.str "2024-03-05", .str "1999", .str "Gibberish"],
    [.str "not-a-date", .str "2024", Value.na]]⟩

/-- Visit whose diagnosis code matches nothing in the dimension. -/
def vOrphan : VisitRow :=
  { visit_id := .num 9, patient_id := .num 2, doctor_id := .num 3,
    department_name := .str "Surgery", diagnosis_code := .str "ZZZ",
    visit_date := .str "2024-01-05", visit_type := .str "IGD",
    visit_duration_days := .num 2, total_cost := .num 40,
    insurance_coverage := .num 10, patient_payment := .num 30,
    satisfaction_rating := .num 5 }

def diagI10 : DiagRow := { diagnosis_id := .num 1, diagnosis_code := .str "I10" }

/-- The patients input of the spec's end-to-end scenario (claim C7). -/
def patScenario : Table :=
  ⟨["patient_id", "age", "gender"],
   [[.str "1", .str "abc", .str "male"],
    [.str "1", .str "30", .str "Female"]]⟩

/-- Diagnoses whose cleaned codes are the null tokens of a second pass. -/
def diagNaEx : Table := ⟨["diagnosis_code"], [[.str "  "], [.str "na"]]⟩

/-- Patients table for the C8 witness. -/
def patKeyW8 : Table := ⟨["patient_id"], [[.str "3"], [.str "4"]]⟩

/-- Visits table with adversarial monetary strings for the C9 witness. -/
def vMoneyW : Table :=
  ⟨["visit_id", "total_cost", "insurance_coverage", "patient_payment",
    "visit_duration_days"],
   [[.str "1", .str "-500", .str "abc", Value.na, .str "2.5"]]⟩

/-- Patient row whose gender is a whitespace-padded casing variant. -/
def gPadEx : Table := ⟨["gender"], [[.str " MALE "]]⟩

/-- Patients table with assorted gender values for the C10 witness. -/
def gMixW : Table :=
  ⟨["gender"], [[.str "fEMALE"], [Value.na], [.str "NA"], [.str "bleh"]]⟩

/- ==================================================================
   Lemma kit: cells, column indices, column maps, deduplication.
   ================================================================== -/

theorem qadd_eq_add (a b : ℚ) : qadd a b = a + b := by
  unfold qadd
  conv_rhs => rw [← Rat.num_divInt_den a, ← Rat.num_divInt_den b]
  rw [Rat.divInt_add_divInt _ _ (by exact_mod_cast a.den_nz) (by exact_mod_cast b.den_nz)]

theorem qsub_eq_sub (a b : ℚ) : qsub a b = a - b := by
  unfold qsub
  conv_rhs => rw [← Rat.num_divInt_den a, ← Rat.num_divInt_den b]
  rw [Rat.divInt_sub_divInt _ _ (by exact_mod_cast a.den_nz) (by exact_mod_cast b.den_nz)]

theorem qofInt_eq (i : Int) : qofInt i = (i : ℚ) := Rat.divInt_one i

theorem length_setCell (r : List Value) (i : Nat) (v : Value) :
    (setCell r i v).length = r.length := by
  induction r generalizing i with
  | nil => rfl
  | cons x xs ih =>
      cases i with
      | zero => rfl
      | succ n => simpa [setCell] using ih n

theorem getCell_setCell_self {r : List Value} {i : Nat} (h : i < r.length) (v : Value) :
    getCell (setCell r i v) i = v := by
  induction r generalizing i with
  | nil => simp at h
  | cons x xs ih =>
      cases i with
      | zero => rfl
      | succ n => simpa [setCell, getCell] using ih (by simpa using h)

theorem getCell_setCell_ne {i j : Nat} (h : i ≠ j) (r : List Value) (v : Value) :
    getCell (setCell r i v) j = getCell r j := by
  induction r generalizing i j with
  | nil => rfl
  | cons x xs ih =>
      cases i with
      | zero => cases j with
          | zero => exact absurd rfl h
          | succ m => rfl
      | succ n =>
          cases j with
          | zero => rfl
          | succ m =>
              have hnm : n ≠ m := by omega
              simpa [setCell, getCell] using ih hnm

theorem setCell_getCell_self (r : List Value) (i : Nat) :
    setCell r i (getCell r i) = r := by
  induction r generalizing i with
  | nil => rfl
  | cons x xs ih =>
      cases i with
      | zero => rfl
      | succ n => simp [setCell, getCell, ih]

theorem getCell_of_length_le {r : List Value} {i : Nat} (h : r.length ≤ i) :
    getCell r i = .na := by
  induction r generalizing i with
  | nil => rfl
  | cons x xs ih =>
      cases i with
      | zero => simp at h
      | succ n => exact ih (by simpa using h)

theorem colIdx_lt_length {c : String} {cs : List String} {i : Nat}
    (h : colIdx c cs = some i) : i < cs.length := by
  induction cs generalizing i with
  | nil => simp [colIdx] at h
  | cons c' cs ih =>
      by_cases hc : c' = c
      · simp [colIdx, hc] at h
        simp only [List.length_cons]
        omega
      · simp only [colIdx, if_neg hc, Option.map_eq_some'] at h
        obtain ⟨j, hj, rfl⟩ := h
        have := ih hj
        simpa using Nat.succ_lt_succ this

theorem colIdx_get {c : String} {cs : List String} {i : Nat}
    (h : colIdx c cs = some i) : cs[i]? = some c := by
  induction cs generalizing i with
  | nil => simp [colIdx] at h
  | cons c' cs ih =>
      by_cases hc : c' = c
      · simp [colIdx, hc] at h
        simp [← h, hc]
      · simp only [colIdx, if_neg hc, Option.map_eq_some'] at h
        obtain ⟨j, hj, rfl⟩ := h
        simpa using ih hj

theorem colIdx_ne {c c' : String} {cs : List String} {i j : Nat}
    (hcc : c ≠ c') (hi : colIdx c cs = some i) (hj : colIdx c' cs = some j) :
    i ≠ j := by
  intro hij
  apply hcc
  have h1 := colIdx_get hi
  have h2 := colIdx_get hj
  rw [hij] at h1
  rw [h1] at h2
  exact Option.some.inj h2

/-- A `mapCol` never changes the column list. -/
theorem cols_mapCol (f : Value → Value) (c : String) (t : Table) :
    (mapCol f c t).cols = t.cols := by
  unfold mapCol
  cases colIdx c t.cols <;> rfl

theorem rows_length_mapCol (f : Value → Value) (c : String) (t : Table) :
    (mapCol f c t).rows.length = t.rows.length := by
  unfold mapCol
  cases colIdx c t.cols <;> simp

theorem WF_mapCol (f : Value → Value) (c : String) {t : Table} (h : WF t) :
    WF (mapCol f c t) := by
  unfold mapCol
  cases hc : colIdx c t.cols with
  | none => exact h
  | some i =>
      intro r hr
      simp only [List.mem_map] at hr
      obtain ⟨r₀, hr₀, rfl⟩ := hr
      simpa [length_setCell] using h r₀ hr₀

/-- Mapping an absent column is the identity. -/
theorem mapCol_absent {f : Value → Value} {c : String} {t : Table}
    (h : colIdx c t.cols = none) : mapCol f c t = t := by
  unfold mapCol
  rw [h]

/-- Column values of the mapped column, on a well-formed table. -/
theorem colVals_mapCol_self {f : Value → Value} {c : String} {t : Table}
    (hwf : WF t) : colVals (mapCol f c t) c = (colVals t c).map f := by
  unfold colVals
  rw [cols_mapCol]
  cases hc : colIdx c t.cols with
  | none => simp [mapCol_absent hc]
  | some i =>
      unfold mapCol
      rw [hc]
      simp only [List.map_map]
      apply List.map_congr_left
      intro r hr
      have hlen : i < r.length := by
        rw [hwf r hr]
        exact colIdx_lt_length hc
      simp [Function.comp, getCell_setCell_self hlen]

/-- Column values of a different column are untouched by `mapCol`. -/
theorem colVals_mapCol_ne {f : Value → Value} {c c' : String} {t : Table}
    (hcc : c ≠ c') : colVals (mapCol f c t) c' = colVals t c' := by
  unfold colVals
  rw [cols_mapCol]
  cases hc : colIdx c t.cols with
  | none => rw [mapCol_absent hc]
  | some i =>
      cases hc' : colIdx c' t.cols with
      | none => rfl
      | some j =>
          unfold mapCol
          rw [hc]
          simp only [List.map_map]
          apply List.map_congr_left
          intro r _
          simp [Function.comp, getCell_setCell_ne (colIdx_ne hcc hc hc')]

/-- If a cell function fixes every value of the column, `mapCol` is the
identity. -/
theorem mapCol_eq_self {f : Value → Value} {c : String} {t : Table}
    (h : ∀ v ∈ colVals t c, f v = v) : mapCol f c t = t := by
  unfold mapCol
  cases hc : colIdx c t.cols with
  | none => rfl
  | some i =>
      have hrows : t.rows.map (fun r => setCell r i (f (getCell r i))) = t.rows := by
        conv_rhs => rw [← List.map_id t.rows]
        apply List.map_congr_left
        intro r hr
        have hv : getCell r i ∈ colVals t c := by
          unfold colVals
          rw [hc]
          exact List.mem_map_of_mem _ hr
        simp [h _ hv, setCell_getCell_self]
      show Table.mk t.cols (t.rows.map (fun r => setCell r i (f (getCell r i)))) = t
      rw [hrows]

/- Deduplication lemmas. -/

theorem dedupAux_subset {α : Type} [DecidableEq α] {f : List Value → α}
    {seen : List α} {l : List (List Value)} :
    ∀ r ∈ dedupAux f seen l, r ∈ l := by
  induction l generalizing seen with
  | nil => simp [dedupAux]
  | cons x xs ih =>
      intro r hr
      unfold dedupAux at hr
      by_cases hx : f x ∈ seen
      · simp only [if_pos hx] at hr
        exact List.mem_cons_of_mem _ (ih _ hr)
      · simp only [if_neg hx, List.mem_cons] at hr
        rcases hr with rfl | hr
        · exact List.mem_cons_self _ _
        · exact List.mem_cons_of_mem _ (ih _ hr)

theorem nodup_map_dedupAux {α : Type} [DecidableEq α] (f : List Value → α)
    (seen : List α) (l : List (List Value)) :
    ((dedupAux f seen l).map f).Nodup ∧ ∀ x ∈ (dedupAux f seen l).map f, x ∉ seen := by
  induction l generalizing seen with
  | nil => simp [dedupAux]
  | cons x xs ih =>
      unfold dedupAux
      by_cases hx : f x ∈ seen
      · simpa [if_pos hx] using ih seen
      · simp only [if_neg hx, List.map_cons, List.nodup_cons]
        obtain ⟨h1, h2⟩ := ih (f x :: seen)
        refine ⟨⟨fun hmem => ?_, h1⟩, ?_⟩
        · exact (h2 _ hmem) (List.mem_cons_self _ _)
        · intro y hy
          rcases List.mem_cons.mp hy with rfl | hy
          · exact hx
          · exact fun hys => (h2 _ hy) (List.mem_cons_of_mem _ hys)

theorem dedupAux_eq_self {α : Type} [DecidableEq α] {f : List Value → α}
    {seen : List α} {l : List (List Value)}
    (hnd : (l.map f).Nodup) (hdisj : ∀ x ∈ l.map f, x ∉ seen) :
    dedupAux f seen l = l := by
  induction l generalizing seen with
  | nil => rfl
  | cons x xs ih =>
      unfold dedupAux
      have hx : f x ∉ seen := hdisj _ (by simp)
      rw [if_neg hx]
      congr 1
      apply ih
      · simpa using hnd.of_cons
      · intro y hy
        simp only [List.mem_cons, not_or]
        constructor
        · intro hyx
          rw [List.map_cons, List.nodup_cons] at hnd
          exact hnd.1 (hyx ▸ hy)
        · exact hdisj _ (List.mem_cons_of_mem _ hy)

theorem dedupAux_key_total {α : Type} [DecidableEq α] (f : List Value → α)
    (seen : List α) (l : List (List Value)) :
    ∀ r ∈ l, f r ∈ seen ∨ ∃ r' ∈ dedupAux f seen l, f r' = f r := by
  induction l generalizing seen with
  | nil => simp
  | cons x xs ih =>
      intro r hr
      unfold dedupAux
      by_cases hx : f x ∈ seen
      · rw [if_pos hx]
        rcases List.mem_cons.mp hr with rfl | hr
        · exact Or.inl hx
        · exact ih seen r hr
      · rw [if_neg hx]
        rcases List.mem_cons.mp hr with rfl | hr
        · exact Or.inr ⟨r, List.mem_cons_self _ _, rfl⟩
        · rcases ih (f x :: seen) r hr with hmem | ⟨r', hr', hfr⟩
          · rcases List.mem_cons.mp hmem with heq | hmem'
            · exact Or.inr ⟨x, List.mem_cons_self _ _, heq.symm⟩
            · exact Or.inl hmem'
          · exact Or.inr ⟨r', List.mem_cons_of_mem _ hr', hfr⟩

theorem cols_dedupe (t : Table) (s : Option (List String)) :
    (dedupe t s).cols = t.cols := rfl

theorem rows_dedupe_subset (t : Table) (s : Option (List String)) :
    ∀ r ∈ (dedupe t s).rows, r ∈ t.rows := dedupAux_subset

theorem WF_dedupe {t : Table} (s : Option (List String)) (h : WF t) :
    WF (dedupe t s) := fun r hr => h r (rows_dedupe_subset t s r hr)

theorem colVals_dedupe_mem {t : Table} {s : Option (List String)} {c : String} :
    ∀ v ∈ colVals (dedupe t s) c, v ∈ colVals t c := by
  unfold colVals
  rw [cols_dedupe]
  cases hc : colIdx c t.cols with
  | none => simp
  | some i =>
      intro v hv
      simp only [List.mem_map] at hv ⊢
      obtain ⟨r, hr, rfl⟩ := hv
      exact ⟨r, rows_dedupe_subset t s r hr, rfl⟩

/-- After deduplicating on a single-column subset, that column's values
are pairwise distinct (this is the content of `drop_duplicates`). -/
theorem nodup_colVals_dedupe_key {t : Table} {k : String}
    (hk : hasCol k t = true) :
    (colVals (dedupe t (some [k])) k).Nodup := by
  unfold hasCol at hk
  cases hc : colIdx k t.cols with
  | none => simp [hc] at hk
  | some i =>
      have hkey : ∀ r : List Value, rowKey t (some [k]) r = [getCell r i] := by
        intro r
        simp [rowKey, hc]
      have hnd := (nodup_map_dedupAux (rowKey t (some [k])) [] t.rows).1
      have hre : (dedupAux (rowKey t (some [k])) [] t.rows).map (rowKey t (some [k]))
          = ((dedupAux (rowKey t (some [k])) [] t.rows).map
              (fun r => getCell r i)).map (fun v => [v]) := by
        rw [List.map_map]
        exact List.map_congr_left (fun r _ => hkey r)
      rw [hre] at hnd
      have hinj : Function.Injective (fun v : Value => [v]) := by
        intro a b hab
        simpa using hab
      have hbase := (List.nodup_map_iff hinj).mp hnd
      have hcols : (dedupe t (some [k])).cols = t.cols := rfl
      unfold colVals
      rw [hcols, hc]
      exact hbase

/- Folded column maps (standardize_missing, clip_non_negative). -/

theorem cols_foldl_mapCol (f : Value → Value) (cs : List String) (t : Table) :
    (cs.foldl (fun t c => mapCol f c t) t).cols = t.cols := by
  induction cs generalizing t with
  | nil => rfl
  | cons d ds ih => simp [List.foldl_cons, ih, cols_mapCol]

theorem WF_foldl_mapCol (f : Value → Value) (cs : List String) {t : Table}
    (h : WF t) : WF (cs.foldl (fun t c => mapCol f c t) t) := by
  induction cs generalizing t with
  | nil => exact h
  | cons d ds ih => exact ih (WF_mapCol f d h)

theorem colVals_foldl_mapCol_ne (f : Value → Value) {cs : List String} {c : String}
    (h : c ∉ cs) (t : Table) :
    colVals (cs.foldl (fun t c => mapCol f c t) t) c = colVals t c := by
  induction cs generalizing t with
  | nil => rfl
  | cons d ds ih =>
      have hdc : d ≠ c := fun hdc => h (hdc ▸ List.mem_cons_self d ds)
      rw [List.foldl_cons, ih (fun hm => h (List.mem_cons_of_mem _ hm)),
        colVals_mapCol_ne hdc]

theorem colVals_foldl_mapCol_self (f : Value → Value) {cs : List String} {c : String}
    (hnd : cs.Nodup) (hc : c ∈ cs) {t : Table} (hwf : WF t) :
    colVals (cs.foldl (fun t c => mapCol f c t) t) c = (colVals t c).map f := by
  induction cs generalizing t with
  | nil => simp at hc
  | cons d ds ih =>
      rw [List.foldl_cons]
      by_cases hdc : d = c
      · subst hdc
        have hnotin : d ∉ ds := (List.nodup_cons.mp hnd).1
        rw [colVals_foldl_mapCol_ne f hnotin, colVals_mapCol_self hwf]
      · have hcds : c ∈ ds := by
          rcases List.mem_cons.mp hc with rfl | h
          · exact absurd rfl hdc
          · exact h
        rw [ih (List.nodup_cons.mp hnd).2 hcds (WF_mapCol f d hwf),
          colVals_mapCol_ne hdc]

/- Header trimming. -/

theorem cols_trimHeader (t : Table) : (trimHeader t).cols = t.cols.map sstrip := rfl

theorem WF_trimHeader {t : Table} (h : WF t) : WF (trimHeader t) := by
  intro r hr
  simpa [trimHeader] using h r hr

theorem headOkWS_dropLeadWS (l : List Char) : headOkWS (dropLeadWS l) = true := by
  induction l with
  | nil => rfl
  | cons c cs ih =>
      unfold dropLeadWS
      by_cases hc : isWSChar c = true
      · simpa [hc] using ih
      · simp [hc, headOkWS]

theorem dropLeadWS_eq_self {l : List Char} (h : headOkWS l = true) :
    dropLeadWS l = l := by
  cases l with
  | nil => rfl
  | cons c cs =>
      unfold headOkWS at h
      unfold dropLeadWS
      simp only [Bool.not_eq_true'] at h
      rw [h]
      simp

theorem headOkWS_append {xs : List Char} {c : Char}
    (h : headOkWS (xs ++ [c]) = true) : headOkWS xs = true := by
  cases xs with
  | nil => rfl
  | cons d ds => simpa [headOkWS] using h

theorem headOkWS_reverse_dropLeadWS {l : List Char}
    (h : headOkWS l.reverse = true) : headOkWS (dropLeadWS l).reverse = true := by
  induction l with
  | nil => rfl
  | cons c cs ih =>
      unfold dropLeadWS
      by_cases hc : isWSChar c = true
      · rw [if_pos hc]
        rw [List.reverse_cons] at h
        exact ih (headOkWS_append h)
      · rw [if_neg hc]
        exact h

theorem sstrip_idem (s : String) : sstrip (sstrip s) = sstrip s := by
  unfold sstrip
  have hdata : (String.mk (dropLeadWS (dropLeadWS s.data.reverse).reverse)).data
      = dropLeadWS (dropLeadWS s.data.reverse).reverse := rfl
  rw [hdata]
  set a := dropLeadWS s.data.reverse with ha
  set r := dropLeadWS a.reverse with hr
  have hra : headOkWS r = true := headOkWS_dropLeadWS _
  have hrev : headOkWS a.reverse.reverse = true := by
    rw [List.reverse_reverse]
    exact headOkWS_dropLeadWS _
  have hrrev : headOkWS r.reverse = true := by
    rw [hr]
    exact headOkWS_reverse_dropLeadWS hrev
  rw [dropLeadWS_eq_self hrrev, List.reverse_reverse, dropLeadWS_eq_self hra]

/-- Trimming the header of a table whose column names are already
trimmed is the identity. -/
theorem trimHeader_of_trimmed {t : Table} {l : List String}
    (h : t.cols = l.map sstrip) : trimHeader t = t := by
  unfold trimHeader
  have : t.cols.map sstrip = t.cols := by
    rw [h, List.map_map]
    exact List.map_congr_left (fun a _ => sstrip_idem a)
  rw [this]

/- The reconciliation block and rebuild step: structural lemmas. -/

theorem cols_reconcilePayment (t : Table) : (reconcilePayment t).cols = t.cols := by
  unfold reconcilePayment
  cases colIdx "patient_payment" t.cols <;>
    cases colIdx "total_cost" t.cols <;>
    cases colIdx "insurance_coverage" t.cols <;>
    simp [cols_mapCol]

theorem WF_reconcilePayment {t : Table} (h : WF t) : WF (reconcilePayment t) := by
  unfold reconcilePayment
  cases hip : colIdx "patient_payment" t.cols with
  | none => exact h
  | some ip =>
      cases hitc : colIdx "total_cost" t.cols with
      | none => exact h
      | some itc =>
          cases hiic : colIdx "insurance_coverage" t.cols with
          | none => exact h
          | some iic =>
              apply WF_mapCol
              intro r hr
              simp only [List.mem_map] at hr
              obtain ⟨r₀, hr₀, rfl⟩ := hr
              by_cases hna : getCell r₀ ip = Value.na
              · simpa [hna, length_setCell] using h r₀ hr₀
              · simpa [hna] using h r₀ hr₀

theorem cols_rebuildComp (i : Nat) (c : String) (f : DateV → Value) (t : Table) :
    (rebuildComp i c f t).cols = t.cols := by
  unfold rebuildComp
  cases colIdx c t.cols <;> rfl

theorem WF_rebuildComp (i : Nat) (c : String) (f : DateV → Value) {t : Table}
    (h : WF t) : WF (rebuildComp i c f t) := by
  unfold rebuildComp
  cases hc : colIdx c t.cols with
  | none => exact h
  | some j =>
      intro r hr
      simp only [List.mem_map] at hr
      obtain ⟨r₀, hr₀, rfl⟩ := hr
      simpa [length_setCell] using h r₀ hr₀

theorem colVals_rebuildComp_ne {c c' : String} (hcc : c' ≠ c)
    (i : Nat) (f : DateV → Value) (t : Table) :
    colVals (rebuildComp i c f t) c' = colVals t c' := by
  unfold rebuildComp
  cases hj : colIdx c t.cols with
  | none => rfl
  | some j =>
      unfold colVals
      cases hk : colIdx c' t.cols with
      | none => rfl
      | some k =>
          simp only [List.map_map]
          apply List.map_congr_left
          intro r _
          simp [Function.comp, getCell_setCell_ne (colIdx_ne (Ne.symm hcc) hj hk)]

theorem cols_foldl_rebuild (i : Nat) (cps : List (String × (DateV → Value)))
    (t : Table) :
    (cps.foldl (fun t p => rebuildComp i p.1 p.2 t) t).cols = t.cols := by
  induction cps generalizing t with
  | nil => rfl
  | cons p ps ih => simp [List.foldl_cons, ih, cols_rebuildComp]

theorem WF_foldl_rebuild (i : Nat) (cps : List (String × (DateV → Value)))
    {t : Table} (h : WF t) :
    WF (cps.foldl (fun t p => rebuildComp i p.1 p.2 t) t) := by
  induction cps generalizing t with
  | nil => exact h
  | cons p ps ih => exact ih (WF_rebuildComp _ _ _ h)

theorem colVals_foldl_rebuild_ne {c' : String} {i : Nat}
    {cps : List (String × (DateV → Value))} (h : ∀ p ∈ cps, c' ≠ p.1)
    (t : Table) :
    colVals (cps.foldl (fun t p => rebuildComp i p.1 p.2 t) t) c' = colVals t c' := by
  induction cps generalizing t with
  | nil => rfl
  | cons p ps ih =>
      rw [List.foldl_cons, ih (fun q hq => h q (List.mem_cons_of_mem _ hq)),
        colVals_rebuildComp_ne (h p (List.mem_cons_self _ _))]

theorem cols_dateBlock (t : Table) : (dateBlock t).cols = t.cols := by
  unfold dateBlock
  cases colIdx "date" t.cols <;>
    simp [cols_foldl_rebuild, cols_rebuildComp, cols_mapCol]

theorem WF_dateBlock {t : Table} (h : WF t) : WF (dateBlock t) := by
  unfold dateBlock
  cases hc : colIdx "date" t.cols with
  | none => exact h
  | some i =>
      apply WF_foldl_rebuild
      intro r hr
      rw [List.mem_filter] at hr
      exact (WF_mapCol toDatetimeV "date" h) r hr.1

theorem cols_ageStep (t : Table) : (ageStep t).cols = t.cols := by
  unfold ageStep
  cases colIdx "age" t.cols <;> simp [cols_mapCol]

theorem WF_ageStep {t : Table} (h : WF t) : WF (ageStep t) := by
  unfold ageStep
  cases hc : colIdx "age" t.cols with
  | none => exact h
  | some i => exact WF_mapCol _ "age" (WF_mapCol _ "age" h)

/- Column values of unrelated columns are untouched by the composite steps. -/

theorem colVals_ageStep_ne {c : String} (hc : c ≠ "age") (t : Table) :
    colVals (ageStep t) c = colVals t c := by
  unfold ageStep
  cases h : colIdx "age" t.cols with
  | none => rfl
  | some i => rw [colVals_mapCol_ne (Ne.symm hc), colVals_mapCol_ne (Ne.symm hc)]

theorem colVals_reconcilePayment_ne {c : String} (hc : c ≠ "patient_payment")
    (t : Table) : colVals (reconcilePayment t) c = colVals t c := by
  unfold reconcilePayment
  cases hip : colIdx "patient_payment" t.cols with
  | none => rfl
  | some ip =>
      cases hitc : colIdx "total_cost" t.cols with
      | none => rfl
      | some itc =>
          cases hiic : colIdx "insurance_coverage" t.cols with
          | none => rfl
          | some iic =>
              rw [colVals_mapCol_ne (fun h => hc h.symm)]
              unfold colVals
              cases hk : colIdx c t.cols with
              | none => rfl
              | some k =>
                  simp only [List.map_map]
                  apply List.map_congr_left
                  intro r _
                  by_cases hna : getCell r ip = Value.na
                  · simp [Function.comp, hna,
                      getCell_setCell_ne (colIdx_ne (fun h => hc h.symm) hip hk)]
                  · simp [Function.comp, hna]

/- Per-cleaner column lists and well-formedness. -/

theorem cols_patientsPre (t : Table) : (patientsPre t).cols = t.cols.map sstrip := by
  simp [patientsPre, cols_mapCol, cols_ageStep, standardize_missing,
    cols_foldl_mapCol, cols_trimHeader]

theorem WF_patientsPre {t : Table} (h : WF t) : WF (patientsPre t) := by
  unfold patientsPre standardize_missing
  exact WF_mapCol _ _ (WF_mapCol _ _ (WF_mapCol _ _ (WF_ageStep (WF_mapCol _ _
    (WF_mapCol _ _ (WF_mapCol _ _ (WF_mapCol _ _ (WF_mapCol _ _
      (WF_foldl_mapCol _ _ (WF_trimHeader h))))))))))

theorem cols_clean_patients (t : Table) :
    (clean_patients t).cols = t.cols.map sstrip := by
  simp [clean_patients, cols_dedupe, cols_patientsPre]

theorem cols_doctorsPre (t : Table) : (doctorsPre t).cols = t.cols.map sstrip := by
  simp [doctorsPre, cols_mapCol, standardize_missing, cols_foldl_mapCol,
    cols_trimHeader]

theorem WF_doctorsPre {t : Table} (h : WF t) : WF (doctorsPre t) := by
  unfold doctorsPre standardize_missing
  exact WF_mapCol _ _ (WF_mapCol _ _ (WF_mapCol _ _ (WF_mapCol _ _ (WF_mapCol _ _
    (WF_mapCol _ _ (WF_mapCol _ _ (WF_foldl_mapCol _ _ (WF_trimHeader h))))))))

theorem cols_clean_doctors (t : Table) :
    (clean_doctors t).cols = t.cols.map sstrip := by
  simp [clean_doctors, cols_dedupe, cols_doctorsPre]

theorem cols_departmentsPre (t : Table) :
    (departmentsPre t).cols = t.cols.map sstrip := by
  simp [departmentsPre, cols_mapCol, standardize_missing, cols_foldl_mapCol,
    cols_trimHeader]

theorem WF_departmentsPre {t : Table} (h : WF t) : WF (departmentsPre t) := by
  unfold departmentsPre standardize_missing
  exact WF_mapCol _ _ (WF_mapCol _ _ (WF_mapCol _ _ (WF_mapCol _ _
    (WF_foldl_mapCol _ _ (WF_trimHeader h)))))

theorem cols_clean_departments (t : Table) :
    (clean_departments t).cols = t.cols.map sstrip := by
  simp [clean_departments, cols_dedupe, cols_departmentsPre]

theorem cols_diagnosesPre (t : Table) :
    (diagnosesPre t).cols = t.cols.map sstrip := by
  simp [diagnosesPre, cols_mapCol, standardize_missing, cols_foldl_mapCol,
    cols_trimHeader]

theorem WF_diagnosesPre {t : Table} (h : WF t) : WF (diagnosesPre t) := by
  unfold diagnosesPre standardize_missing
  exact WF_mapCol _ _ (WF_mapCol _ _ (WF_mapCol _ _
    (WF_foldl_mapCol _ _ (WF_trimHeader h))))

theorem cols_clean_diagnoses (t : Table) :
    (clean_diagnoses t).cols = t.cols.map sstrip := by
  simp [clean_diagnoses, cols_dedupe, cols_diagnosesPre]

theorem cols_datesStd (t : Table) : (datesStd t).cols = t.cols.map sstrip := by
  simp [datesStd, standardize_missing, cols_foldl_mapCol, cols_mapCol, cols_trimHeader]

theorem WF_datesStd {t : Table} (h : WF t) : WF (datesStd t) := by
  unfold datesStd standardize_missing
  exact WF_foldl_mapCol _ _ (WF_trimHeader h)

theorem cols_datesPre (t : Table) : (datesPre t).cols = t.cols.map sstrip := by
  simp [datesPre, cols_mapCol, cols_dateBlock, cols_datesStd]

theorem WF_datesPre {t : Table} (h : WF t) : WF (datesPre t) := by
  unfold datesPre
  exact WF_mapCol _ _ (WF_dateBlock (WF_datesStd h))

theorem cols_clean_dates (t : Table) :
    (clean_dates t).cols = t.cols.map sstrip := by
  simp [clean_dates, cols_dedupe, cols_datesPre]

theorem cols_visitsClipped (t : Table) :
    (visitsClipped t).cols = t.cols.map sstrip := by
  simp [visitsClipped, clip_non_negative, cols_foldl_mapCol, cols_mapCol,
    cols_trimHeader]

theorem WF_visitsClipped {t : Table} (h : WF t) : WF (visitsClipped t) := by
  unfold visitsClipped clip_non_negative
  exact WF_foldl_mapCol _ _ (WF_mapCol _ _ (WF_mapCol _ _ (WF_mapCol _ _
    (WF_mapCol _ _ (WF_trimHeader h)))))

theorem cols_visitsPre (t : Table) : (visitsPre t).cols = t.cols.map sstrip := by
  simp [visitsPre, cols_mapCol, cols_reconcilePayment, cols_visitsClipped]

theorem WF_visitsPre {t : Table} (h : WF t) : WF (visitsPre t) := by
  unfold visitsPre
  exact WF_mapCol _ _ (WF_mapCol _ _ (WF_mapCol _ _
    (WF_reconcilePayment (WF_visitsClipped h))))

theorem cols_clean_visits (t : Table) :
    (clean_visits t).cols = t.cols.map sstrip := by
  simp [clean_visits, cols_dedupe, cols_visitsPre]

/- Key-column idempotence. -/

theorem numericInt64V_idem (v : Value) :
    numericInt64V (numericInt64V v) = numericInt64V v := by
  cases v with
  | na => rfl
  | date d => rfl
  | num q =>
      simp only [numericInt64V, toNumericV, toInt64V]
      by_cases h : q.den = 1 <;> simp [h]
  | str s =>
      simp only [numericInt64V, toNumericV]
      cases hp : parseDecimal s with
      | none => rfl
      | some q =>
          simp only [toInt64V]
          by_cases h : q.den = 1 <;> simp [h]

/- Key-column tracking: each numeric-key cleaner applies exactly
`numericInt64V` to its key column and nothing else. -/

theorem colVals_patientsPre_key {t : Table} (hwf : WF t) :
    colVals (patientsPre t) "patient_id"
      = (colVals (trimHeader t) "patient_id").map numericInt64V := by
  simp only [patientsPre, standardize_missing]
  rw [colVals_mapCol_self (WF_mapCol _ _ (WF_mapCol _ _ (WF_ageStep (WF_mapCol _ _
    (WF_mapCol _ _ (WF_mapCol _ _ (WF_mapCol _ _ (WF_mapCol _ _
      (WF_foldl_mapCol _ _ (WF_trimHeader hwf))))))))))]
  refine congrArg _ ?_
  rw [colVals_mapCol_ne (by decide), colVals_mapCol_ne (by decide),
    colVals_ageStep_ne (by decide), colVals_mapCol_ne (by decide),
    colVals_mapCol_ne (by decide), colVals_mapCol_ne (by decide),
    colVals_mapCol_ne (by decide), colVals_mapCol_ne (by decide),
    colVals_foldl_mapCol_ne _ (by decide)]

theorem colVals_doctorsPre_key {t : Table} (hwf : WF t) :
    colVals (doctorsPre t) "doctor_id"
      = (colVals (trimHeader t) "doctor_id").map numericInt64V := by
  simp only [doctorsPre, standardize_missing]
  rw [colVals_mapCol_self (WF_mapCol _ _ (WF_mapCol _ _ (WF_mapCol _ _
    (WF_mapCol _ _ (WF_mapCol _ _ (WF_mapCol _ _
      (WF_foldl_mapCol _ _ (WF_trimHeader hwf))))))))]
  refine congrArg _ ?_
  rw [colVals_mapCol_ne (by decide), colVals_mapCol_ne (by decide),
    colVals_mapCol_ne (by decide), colVals_mapCol_ne (by decide),
    colVals_mapCol_ne (by decide), colVals_mapCol_ne (by decide),
    colVals_foldl_mapCol_ne _ (by decide)]

theorem colVals_departmentsPre_key {t : Table} (hwf : WF t) :
    colVals (departmentsPre t) "department_id"
      = (colVals (trimHeader t) "department_id").map numericInt64V := by
  simp only [departmentsPre, standardize_missing]
  rw [colVals_mapCol_ne (by decide),
    colVals_mapCol_self (WF_mapCol _ _ (WF_mapCol _ _
      (WF_foldl_mapCol _ _ (WF_trimHeader hwf))))]
  congr 1
  rw [colVals_mapCol_ne (by decide), colVals_mapCol_ne (by decide),
    colVals_foldl_mapCol_ne _ (by decide)]

theorem colVals_visitsPre_key {t : Table} (hwf : WF t) :
    colVals (visitsPre t) "visit_id"
      = (colVals (trimHeader t) "visit_id").map numericInt64V := by
  simp only [visitsPre, visitsClipped, clip_non_negative]
  rw [colVals_mapCol_self (WF_mapCol _ _ (WF_mapCol _ _ (WF_reconcilePayment
    (WF_foldl_mapCol _ _ (WF_mapCol _ _ (WF_mapCol _ _ (WF_mapCol _ _
      (WF_mapCol _ _ (WF_trimHeader hwf)))))))))]
  refine congrArg _ ?_
  rw [colVals_mapCol_ne (by decide), colVals_mapCol_ne (by decide),
    colVals_reconcilePayment_ne (by decide),
    colVals_foldl_mapCol_ne _ (by decide), colVals_mapCol_ne (by decide),
    colVals_mapCol_ne (by decide), colVals_mapCol_ne (by decide),
    colVals_mapCol_ne (by decide)]

end HC

namespace HC

theorem hasCol_of_cols_eq {c : String} {t u : Table} (h : t.cols = u.cols) :
    hasCol c t = hasCol c u := by
  unfold hasCol
  rw [h]

/-- Deduplicating on a key whose values are already pairwise distinct
removes nothing. -/
theorem dedupe_key_rows_eq {t : Table} {k : String} (hk : hasCol k t = true)
    (hnd : (colVals t k).Nodup) : (dedupe t (some [k])).rows = t.rows := by
  unfold hasCol at hk
  cases hc : colIdx k t.cols with
  | none => simp [hc] at hk
  | some i =>
      show dedupAux (rowKey t (some [k])) [] t.rows = t.rows
      apply dedupAux_eq_self
      · have hkey : ∀ r : List Value, rowKey t (some [k]) r = [getCell r i] := by
          intro r
          simp [rowKey, hc]
        have hmm : t.rows.map (rowKey t (some [k]))
            = (t.rows.map (fun r => getCell r i)).map (fun v => [v]) := by
          rw [List.map_map]
          exact List.map_congr_left (fun r _ => hkey r)
        rw [hmm]
        unfold colVals at hnd
        rw [hc] at hnd
        exact List.Nodup.map (fun a b hab => by simpa using hab) hnd
      · simp

/-- A list each of whose members is in the range of `numericInt64V` is
fixed by mapping `numericInt64V` over it. -/
theorem key_fixed_of_mapped {l : List Value}
    (h : ∀ v ∈ l, ∃ u, v = numericInt64V u) : l.map numericInt64V = l := by
  conv_rhs => rw [← List.map_id l]
  apply List.map_congr_left
  intro v hv
  obtain ⟨u, rfl⟩ := h v hv
  simp [numericInt64V_idem]

end HC

namespace HC

/-- Claim C4 (amended): for every cleaned entity table whose natural
key column is present after header trimming, that key is unique across
the output rows — where the key of the dates table is `date` (the
column the source deduplicates on), not `date_id`. -/
theorem c4_natural_keys_unique :
    (∀ t, hasCol "patient_id" (trimHeader t) = true →
      (colVals (clean_patients t) "patient_id").Nodup) ∧
    (∀ t, hasCol "doctor_id" (trimHeader t) = true →
      (colVals (clean_doctors t) "doctor_id").Nodup) ∧
    (∀ t, hasCol "department_id" (trimHeader t) = true →
      (colVals (clean_departments t) "department_id").Nodup) ∧
    (∀ t, hasCol "diagnosis_code" (trimHeader t) = true →
      (colVals (clean_diagnoses t) "diagnosis_code").Nodup) ∧
    (∀ t, hasCol "date" (trimHeader t) = true →
      (colVals (clean_dates t) "date").Nodup) ∧
    (∀ t, hasCol "visit_id" (trimHeader t) = true →
      (colVals (clean_visits t) "visit_id").Nodup) := by
  refine ⟨?_, ?_, ?_, ?_, ?_, ?_⟩
  · intro t hk
    have hk' : hasCol "patient_id" (patientsPre t) = true := by
      rw [hasCol_of_cols_eq ((cols_patientsPre t).trans (cols_trimHeader t).symm)]
      exact hk
    have heq : clean_patients t = dedupe (patientsPre t) (some ["patient_id"]) := by
      simp only [clean_patients, hk', if_true]
    rw [heq]
    exact nodup_colVals_dedupe_key hk'
  · intro t hk
    have hk' : hasCol "doctor_id" (doctorsPre t) = true := by
      rw [hasCol_of_cols_eq ((cols_doctorsPre t).trans (cols_trimHeader t).symm)]
      exact hk
    have heq : clean_doctors t = dedupe (doctorsPre t) (some ["doctor_id"]) := by
      simp only [clean_doctors, hk', if_true]
    rw [heq]
    exact nodup_colVals_dedupe_key hk'
  · intro t hk
    have hk' : hasCol "department_id" (departmentsPre t) = true := by
      rw [hasCol_of_cols_eq ((cols_departmentsPre t).trans (cols_trimHeader t).symm)]
      exact hk
    have heq : clean_departments t
        = dedupe (departmentsPre t) (some ["department_id"]) := by
      simp only [clean_departments, hk', if_true]
    rw [heq]
    exact nodup_colVals_dedupe_key hk'
  · intro t hk
    have hk' : hasCol "diagnosis_code" (diagnosesPre t) = true := by
      rw [hasCol_of_cols_eq ((cols_diagnosesPre t).trans (cols_trimHeader t).symm)]
      exact hk
    have heq : clean_diagnoses t
        = dedupe (diagnosesPre t) (some ["diagnosis_code"]) := by
      simp only [clean_diagnoses, hk', if_true]
    rw [heq]
    exact nodup_colVals_dedupe_key hk'
  · intro t hk
    have hk' : hasCol "date" (datesPre t) = true := by
      rw [hasCol_of_cols_eq ((cols_datesPre t).trans (cols_trimHeader t).symm)]
      exact hk
    have heq : clean_dates t = dedupe (datesPre t) (some ["date"]) := by
      simp only [clean_dates, hk', if_true]
    rw [heq]
    exact nodup_colVals_dedupe_key hk'
  · intro t hk
    have hk' : hasCol "visit_id" (visitsPre t) = true := by
      rw [hasCol_of_cols_eq ((cols_visitsPre t).trans (cols_trimHeader t).symm)]
      exact hk
    have heq : clean_visits t = dedupe (visitsPre t) (some ["visit_id"]) := by
      simp only [clean_visits, hk', if_true]
    rw [heq]
    exact nodup_colVals_dedupe_key hk'

/-- Claim C4 as stated is false: `date_id` is present in the input, yet
after cleaning, two rows with distinct dates share `date_id` 5, because
the source deduplicates dates by `date`, not by `date_id`. -/
theorem c4_counterexample :
    hasCol "date_id" (trimHeader datesDupIdEx) = true ∧
    colVals (clean_dates datesDupIdEx) "date_id" = [.num 5, .num 5] ∧
    ¬ (colVals (clean_dates datesDupIdEx) "date_id").Nodup := by decide

theorem c4_witness :
    hasCol "patient_id" (trimHeader patKeyW) = true ∧
    (colVals (clean_patients patKeyW) "patient_id").Nodup :=
  ⟨by decide, c4_natural_keys_unique.1 patKeyW (by decide)⟩

/-- Claim C7: on the spec's two-row duplicate-patient input, cleaning
keeps exactly one row for patient 1 (the first occurrence), replaces
the invalid age by the truncated column median 30 clipped to [0, 120],
and title-cases the gender to Male. -/
theorem c7_patient_scenario :
    clean_patients patScenario
      = ⟨["patient_id", "age", "gender"], [[.num 1, .num 30, .str "Male"]]⟩ ∧
    truncQ (medianQ [30]) = 30 ∧
    clipRangeV 0 120 (.num 30) = .num 30 := by decide

/-- Claim C1 is right about the intent but the code violates it: on a
visit whose `patient_payment` is missing with `total_cost` 100 and
`insurance_coverage` 30, the cleaner outputs payment 0, not
`max(100 - 30, 0) = 70`, because `clip_non_negative` fills the missing
payment with 0 before the reconciliation block computes its mask, so
the mask is always empty and the reconciliation is dead code. -/
theorem c1_reconciliation_dead :
    colVals (clean_visits vPayEx) "patient_payment" = [.num 0] ∧
    colVals (clean_visits vPayEx) "total_cost" = [.num 100] ∧
    colVals (clean_visits vPayEx) "insurance_coverage" = [.num 30] ∧
    max ((100 : ℚ) - 30) 0 = 70 ∧
    Value.num 0 ≠ Value.num 70 := by
  refine ⟨by decide, by decide, by decide, ?_, by decide⟩
  rw [show ((100 : ℚ) - 30) = 70 by norm_num]
  exact max_eq_left (by norm_num)

end HC

namespace HC

theorem toDatetimeV_shape (w : Value) :
    toDatetimeV w = .na ∨ ∃ d, toDatetimeV w = .date d := by
  cases w with
  | na => exact Or.inl rfl
  | num q => exact Or.inl rfl
  | date d => exact Or.inr ⟨d, rfl⟩
  | str s =>
      cases hp : parseDate s with
      | none => exact Or.inl (by simp [toDatetimeV, hp])
      | some d => exact Or.inr ⟨d, by simp [toDatetimeV, hp]⟩

/-- Every value left in the `date` column by the date block is a parsed
date (the block coerces the column and drops the rows that failed). -/
theorem dateBlock_col_parsed {u : Table} (hwfu : WF u) :
    ∀ v ∈ colVals (dateBlock u) "date", ∃ d, v = Value.date d := by
  intro v hv
  unfold dateBlock at hv
  cases hci : colIdx "date" u.cols with
  | none => simp [hci, colVals] at hv
  | some i =>
      rw [hci] at hv
      rw [colVals_foldl_rebuild_ne (by decide) _] at hv
      simp only [colVals, cols_mapCol, hci, List.mem_map] at hv
      obtain ⟨r, hrf, rfl⟩ := hv
      have hrmem := (List.mem_filter.mp hrf).1
      have hne : getCell r i ≠ Value.na := by
        have h2 := (List.mem_filter.mp hrf).2
        simpa using h2
      unfold mapCol at hrmem
      rw [hci] at hrmem
      simp only [List.mem_map] at hrmem
      obtain ⟨r₀, hr₀, rfl⟩ := hrmem
      have hlen : i < r₀.length := by
        rw [hwfu r₀ hr₀]
        exact colIdx_lt_length hci
      rw [getCell_setCell_self hlen] at hne ⊢
      rcases toDatetimeV_shape (getCell r₀ i) with h | ⟨d, h⟩
      · exact absurd h hne
      · exact ⟨d, h⟩

/-- Every value of the `date` column of a cleaned dates table is a
parsed date. -/
theorem dates_col_parsed {df : Table} (hwf : WF df) :
    ∀ v ∈ colVals (clean_dates df) "date", ∃ d, v = Value.date d := by
  intro v hv
  have hv1 : v ∈ colVals (datesPre df) "date" := colVals_dedupe_mem v hv
  simp only [datesPre] at hv1
  rw [colVals_mapCol_ne (by decide : "date_id" ≠ "date")] at hv1
  exact dateBlock_col_parsed (WF_datesStd hwf) v hv1

/-- On a table whose `date` column holds only parsed dates, the date
block preserves distinctness of that column. -/
theorem dateBlock_nodup_key {u : Table}
    (hd : ∀ v ∈ colVals u "date", ∃ d, v = Value.date d)
    (hnd : (colVals u "date").Nodup) :
    (colVals (dateBlock u) "date").Nodup := by
  unfold dateBlock
  cases hci : colIdx "date" u.cols with
  | none => exact hnd
  | some i =>
      have hfix : mapCol toDatetimeV "date" u = u := by
        apply mapCol_eq_self
        intro v hv
        obtain ⟨d, rfl⟩ := hd v hv
        rfl
      rw [hfix]
      rw [colVals_foldl_rebuild_ne (by decide) _]
      simp only [colVals, hci]
      have hsub : List.Sublist
          ((u.rows.filter (fun r => getCell r i != Value.na)).map
            (fun r => getCell r i))
          (u.rows.map (fun r => getCell r i)) :=
        (List.filter_sublist _).map _
      have hnd' : (u.rows.map (fun r => getCell r i)).Nodup := by
        have : colVals u "date" = u.rows.map (fun r => getCell r i) := by
          simp [colVals, hci]
        rwa [this] at hnd
      exact hnd'.sublist hsub

theorem map_sstrip_idem (l : List String) :
    (l.map sstrip).map sstrip = l.map sstrip := by
  rw [List.map_map]
  exact List.map_congr_left (fun a _ => sstrip_idem a)

/-- Generic second-pass argument for cleaners whose key column is
transformed by exactly `numericInt64V`: re-cleaning a cleaned table
removes no rows at the deduplication step. -/
theorem numericKey_second_pass (cleanF preF : Table → Table) (k : String)
    (hclean : ∀ u, hasCol k (preF u) = true → cleanF u = dedupe (preF u) (some [k]))
    (hcols : ∀ u, (preF u).cols = u.cols.map sstrip)
    (hWFpre : ∀ u, WF u → WF (preF u))
    (hkeyv : ∀ u, WF u → colVals (preF u) k = (colVals (trimHeader u) k).map numericInt64V)
    {df : Table} (hwf : WF df) (hk : hasCol k (trimHeader df) = true) :
    (cleanF (cleanF df)).rows.length = (preF (cleanF df)).rows.length := by
  have hk1 : hasCol k (preF df) = true := by
    rw [hasCol_of_cols_eq ((hcols df).trans (cols_trimHeader df).symm)]
    exact hk
  have heq1 := hclean df hk1
  have hwfp := hWFpre df hwf
  have hwft : WF (cleanF df) := by
    rw [heq1]
    exact WF_dedupe _ hwfp
  have hndt : (colVals (cleanF df) k).Nodup := by
    rw [heq1]
    exact nodup_colVals_dedupe_key hk1
  have hcolst : (cleanF df).cols = df.cols.map sstrip := by
    rw [heq1]
    exact hcols df
  have htrim : trimHeader (cleanF df) = cleanF df := trimHeader_of_trimmed hcolst
  have hmem : ∀ v ∈ colVals (cleanF df) k, ∃ u, v = numericInt64V u := by
    intro v hv
    rw [heq1] at hv
    have hv' := colVals_dedupe_mem v hv
    rw [hkeyv df hwf] at hv'
    obtain ⟨u, _, rfl⟩ := List.mem_map.mp hv'
    exact ⟨u, rfl⟩
  have hkey2 : colVals (preF (cleanF df)) k = colVals (cleanF df) k := by
    rw [hkeyv _ hwft, htrim, key_fixed_of_mapped hmem]
  have hnd2 : (colVals (preF (cleanF df)) k).Nodup := by
    rw [hkey2]
    exact hndt
  have hcols2 : (preF (cleanF df)).cols = (cleanF df).cols := by
    rw [hcols, hcolst]
    exact map_sstrip_idem df.cols
  have hk2 : hasCol k (preF (cleanF df)) = true := by
    rw [hasCol_of_cols_eq hcols2,
      hasCol_of_cols_eq (hcolst.trans (cols_trimHeader df).symm)]
    exact hk
  rw [hclean _ hk2, dedupe_key_rows_eq hk2 hnd2]

end HC

namespace HC

/-- Claim C8 (amended): re-cleaning a cleaned table removes zero rows
in the deduplication step for the patient, doctor, department and
visit cleaners whenever the natural key column is present, and for the
date cleaner whenever the `date` column is present.  (The diagnosis
cleaner is excluded: its code normalization can merge distinct cleaned
codes into the missing marker on a second pass — see the
counterexample.) -/
theorem c8_dedupe_idempotent :
    (∀ df, WF df → hasCol "patient_id" (trimHeader df) = true →
      (clean_patients (clean_patients df)).rows.length
        = (patientsPre (clean_patients df)).rows.length) ∧
    (∀ df, WF df → hasCol "doctor_id" (trimHeader df) = true →
      (clean_doctors (clean_doctors df)).rows.length
        = (doctorsPre (clean_doctors df)).rows.length) ∧
    (∀ df, WF df → hasCol "department_id" (trimHeader df) = true →
      (clean_departments (clean_departments df)).rows.length
        = (departmentsPre (clean_departments df)).rows.length) ∧
    (∀ df, WF df → hasCol "date" (trimHeader df) = true →
      (clean_dates (clean_dates df)).rows.length
        = (datesPre (clean_dates df)).rows.length) ∧
    (∀ df, WF df → hasCol "visit_id" (trimHeader df) = true →
      (clean_visits (clean_visits df)).rows.length
        = (visitsPre (clean_visits df)).rows.length) := by
  refine ⟨?_, ?_, ?_, ?_, ?_⟩
  · intro df hwf hk
    exact numericKey_second_pass clean_patients patientsPre "patient_id"
      (fun u hku => by simp only [clean_patients, hku, if_true])
      cols_patientsPre (fun u hu => WF_patientsPre hu)
      (fun u hu => colVals_patientsPre_key hu) hwf hk
  · intro df hwf hk
    exact numericKey_second_pass clean_doctors doctorsPre "doctor_id"
      (fun u hku => by simp only [clean_doctors, hku, if_true])
      cols_doctorsPre (fun u hu => WF_doctorsPre hu)
      (fun u hu => colVals_doctorsPre_key hu) hwf hk
  · intro df hwf hk
    exact numericKey_second_pass clean_departments departmentsPre "department_id"
      (fun u hku => by simp only [clean_departments, hku, if_true])
      cols_departmentsPre (fun u hu => WF_departmentsPre hu)
      (fun u hu => colVals_departmentsPre_key hu) hwf hk
  · intro df hwf hk
    have hclean : ∀ u, hasCol "date" (datesPre u) = true →
        clean_dates u = dedupe (datesPre u) (some ["date"]) := by
      intro u hku
      simp only [clean_dates, hku, if_true]
    have hk1 : hasCol "date" (datesPre df) = true := by
      rw [hasCol_of_cols_eq ((cols_datesPre df).trans (cols_trimHeader df).symm)]
      exact hk
    have heq1 : clean_dates df = dedupe (datesPre df) (some ["date"]) := hclean df hk1
    have hwft : WF (clean_dates df) := by
      rw [heq1]
      exact WF_dedupe _ (WF_datesPre hwf)
    have hndt : (colVals (clean_dates df) "date").Nodup := by
      rw [heq1]
      exact nodup_colVals_dedupe_key hk1
    have hcolst : (clean_dates df).cols = df.cols.map sstrip := cols_clean_dates df
    have htrim : trimHeader (clean_dates df) = clean_dates df :=
      trimHeader_of_trimmed hcolst
    have hnd2 : (colVals (datesPre (clean_dates df)) "date").Nodup := by
      simp only [datesPre, datesStd, standardize_missing]
      rw [colVals_mapCol_ne (by decide : "date_id" ≠ "date"), htrim]
      apply dateBlock_nodup_key
      · intro v hv
        rw [colVals_foldl_mapCol_ne _ (by decide)] at hv
        exact dates_col_parsed hwf v hv
      · rw [colVals_foldl_mapCol_ne _ (by decide)]
        exact hndt
    have hcols2 : (datesPre (clean_dates df)).cols = (clean_dates df).cols := by
      rw [cols_datesPre, hcolst]
      exact map_sstrip_idem df.cols
    have hk2 : hasCol "date" (datesPre (clean_dates df)) = true := by
      rw [hasCol_of_cols_eq hcols2,
        hasCol_of_cols_eq (hcolst.trans (cols_trimHeader df).symm)]
      exact hk
    have heq2 : clean_dates (clean_dates df)
        = dedupe (datesPre (clean_dates df)) (some ["date"]) := hclean _ hk2
    rw [heq2, dedupe_key_rows_eq hk2 hnd2]
  · intro df hwf hk
    exact numericKey_second_pass clean_visits visitsPre "visit_id"
      (fun u hku => by simp only [clean_visits, hku, if_true])
      cols_visitsPre (fun u hu => WF_visitsPre hu)
      (fun u hu => colVals_visitsPre_key hu) hwf hk

/-- Claim C8 as stated is false for the diagnosis cleaner: the cleaned
codes of `diagNaEx` are the strings "" and "NA", which a second pass
turns into null tokens, collapsing both keys to the missing marker, so
the second deduplication removes one row. -/
theorem c8_counterexample :
    clean_diagnoses diagNaEx = ⟨["diagnosis_code"], [[.str ""], [.str "NA"]]⟩ ∧
    (diagnosesPre (clean_diagnoses diagNaEx)).rows.length = 2 ∧
    (clean_diagnoses (clean_diagnoses diagNaEx)).rows.length = 1 := by decide

theorem c8_witness :
    WF patKeyW8 ∧ hasCol "patient_id" (trimHeader patKeyW8) = true ∧
    (clean_patients (clean_patients patKeyW8)).rows.length
      = (patientsPre (clean_patients patKeyW8)).rows.length :=
  ⟨by decide, by decide, c8_dedupe_idempotent.1 patKeyW8 (by decide) (by decide)⟩

end HC

namespace HC

theorem toNumericV_shape (v : Value) :
    toNumericV v = .na ∨ ∃ q, toNumericV v = .num q := by
  cases v with
  | na => exact Or.inl rfl
  | date d => exact Or.inl rfl
  | num q => exact Or.inr ⟨q, rfl⟩
  | str s =>
      cases hp : parseDecimal s with
      | none => exact Or.inl (by simp [toNumericV, hp])
      | some q => exact Or.inr ⟨q, by simp [toNumericV, hp]⟩

/-- `clip_non_negative`'s per-cell composite always produces a
non-negative number. -/
theorem moneyClipV_nonneg (v : Value) : ∃ q, 0 ≤ q ∧ moneyClipV v = .num q := by
  rcases toNumericV_shape v with h | ⟨q, h⟩
  · exact ⟨max 0 0, le_max_right _ _, by simp [moneyClipV, h, fillnaV, clipLower0V]⟩
  · exact ⟨max q 0, le_max_right _ _, by simp [moneyClipV, h, fillnaV, clipLower0V]⟩

/-- A missing or non-numeric cell becomes exactly 0. -/
theorem moneyClipV_of_nonnum {v : Value} (h : toNumericV v = .na) :
    moneyClipV v = .num 0 := by
  simp [moneyClipV, h, fillnaV, clipLower0V]

/-- The monetary/duration columns of the clipped stage are exactly the
input columns (after header trimming) mapped through the clip
composite. -/
theorem colVals_visitsClipped {t : Table} {c : String} (hwf : WF t)
    (hc : c ∈ moneyCols) :
    colVals (visitsClipped t) c = (colVals (trimHeader t) c).map moneyClipV := by
  have hwfc : WF (mapCol toDatetimeV "visit_date" (mapCol strStripV "visit_type"
      (mapCol strStripV "diagnosis_code" (mapCol strStripV "department_name"
        (trimHeader t))))) :=
    WF_mapCol _ _ (WF_mapCol _ _ (WF_mapCol _ _ (WF_mapCol _ _ (WF_trimHeader hwf))))
  simp only [visitsClipped, clip_non_negative]
  rw [colVals_foldl_mapCol_self moneyClipV (by decide) hc hwfc]
  refine congrArg _ ?_
  fin_cases hc <;>
    rw [colVals_mapCol_ne (by decide), colVals_mapCol_ne (by decide),
      colVals_mapCol_ne (by decide), colVals_mapCol_ne (by decide)]

/-- After `clip_non_negative`, no `patient_payment` cell is missing, so
the reconciliation block of `clean_visits` is the identity: its
missing-mask is empty and its re-clip changes nothing. -/
theorem reconcile_clipped_eq {t : Table} (hwf : WF t) :
    reconcilePayment (visitsClipped t) = visitsClipped t := by
  have hpp : ∀ v ∈ colVals (visitsClipped t) "patient_payment",
      ∃ q, 0 ≤ q ∧ v = Value.num q := by
    intro v hv
    rw [colVals_visitsClipped hwf (by decide)] at hv
    obtain ⟨u, _, rfl⟩ := List.mem_map.mp hv
    exact moneyClipV_nonneg u
  have hwfc : WF (visitsClipped t) := WF_visitsClipped hwf
  generalize hu : visitsClipped t = u at hpp hwfc
  unfold reconcilePayment
  cases hip : colIdx "patient_payment" u.cols with
  | none => rfl
  | some ip =>
      cases hitc : colIdx "total_cost" u.cols with
      | none => rfl
      | some itc =>
          cases hiic : colIdx "insurance_coverage" u.cols with
          | none => rfl
          | some iic =>
              show mapCol clipLower0V "patient_payment"
                (⟨u.cols, u.rows.map (fun r =>
                  if getCell r ip = Value.na then
                    setCell r ip (clipLower0V (vsub (getCell r itc) (getCell r iic)))
                  else r)⟩ : Table) = u
              have hrows : u.rows.map (fun r =>
                  if getCell r ip = Value.na then
                    setCell r ip (clipLower0V (vsub (getCell r itc) (getCell r iic)))
                  else r) = u.rows := by
                conv_rhs => rw [← List.map_id u.rows]
                apply List.map_congr_left
                intro r hr
                have hv : getCell r ip ∈ colVals u "patient_payment" := by
                  unfold colVals
                  rw [hip]
                  exact List.mem_map_of_mem _ hr
                obtain ⟨q, _, hq⟩ := hpp _ hv
                simp [hq]
              rw [hrows]
              have heta : (⟨u.cols, u.rows⟩ : Table) = u := rfl
              rw [heta]
              apply mapCol_eq_self
              intro v hv
              obtain ⟨q, hq0, rfl⟩ := hpp v hv
              simp [clipLower0V, max_eq_left hq0]

/-- Claim C9: (i) every present monetary/duration column of a cleaned
visits table holds only non-negative numbers; (ii) a cell of such a
column that is missing or non-numeric becomes exactly 0 at the clip
stage; (iii) the payment-reconciliation step is the identity on the
clipped table, so no row reaches it with `patient_payment` missing. -/
theorem c9_monetary_invariants :
    (∀ t, WF t → ∀ c ∈ moneyCols, ∀ v ∈ colVals (clean_visits t) c,
      ∃ q, 0 ≤ q ∧ v = Value.num q) ∧
    (∀ t c, c ∈ moneyCols → WF t → ∀ (j : Nat) (v₀ : Value),
      (colVals (trimHeader t) c)[j]? = some v₀ → toNumericV v₀ = Value.na →
      (colVals (visitsClipped t) c)[j]? = some (Value.num 0)) ∧
    (∀ t, WF t → reconcilePayment (visitsClipped t) = visitsClipped t) := by
  refine ⟨?_, ?_, fun t hwf => reconcile_clipped_eq hwf⟩
  · intro t hwf c hc v hv
    have hv1 : v ∈ colVals (visitsPre t) c := colVals_dedupe_mem v hv
    simp only [visitsPre] at hv1
    fin_cases hc
    all_goals {
      rw [colVals_mapCol_ne (by decide), colVals_mapCol_ne (by decide),
        colVals_mapCol_ne (by decide), reconcile_clipped_eq hwf,
        colVals_visitsClipped hwf (by decide)] at hv1
      obtain ⟨u, _, rfl⟩ := List.mem_map.mp hv1
      exact moneyClipV_nonneg u
    }
  · intro t c hc hwf j v₀ hj hnn
    rw [colVals_visitsClipped hwf hc, List.getElem?_map, hj]
    simp [moneyClipV_of_nonnum hnn]

theorem c9_witness :
    WF vMoneyW ∧
    (∀ c ∈ moneyCols, ∀ v ∈ colVals (clean_visits vMoneyW) c,
      ∃ q, 0 ≤ q ∧ v = Value.num q) ∧
    reconcilePayment (visitsClipped vMoneyW) = visitsClipped vMoneyW :=
  ⟨by decide, c9_monetary_invariants.1 vMoneyW (by decide),
    c9_monetary_invariants.2.2 vMoneyW (by decide)⟩

end HC

namespace HC

theorem genderWhereV_shape (u : Value) :
    genderWhereV u = .str "Male" ∨ genderWhereV u = .str "Female" ∨
      genderWhereV u = .str "Unknown" := by
  unfold genderWhereV
  by_cases h : u = Value.str "Male" ∨ u = Value.str "Female"
  · rcases h with h | h <;> simp [h]
  · simp [h]

/-- The gender column of the patient transformation is the input gender
column mapped through standardize, strip, title-case frequency and the
Male/Female filter, in that order. -/
theorem colVals_patientsPre_gender {t : Table} (hwf : WF t) :
    colVals (patientsPre t) "gender"
      = (colVals (trimHeader t) "gender").map
          (fun v => genderWhereV (titleV (strStripV (standardizeV v)))) := by
  have h0 := WF_trimHeader hwf
  have h1 := WF_foldl_mapCol standardizeV
    ["patient_name", "insurance_type", "city", "gender"] h0
  have h2 := WF_mapCol strStripV "patient_name" h1
  have h3 := WF_mapCol strStripV "gender" h2
  have h4 := WF_mapCol strStripV "city" h3
  have h5 := WF_mapCol strStripV "insurance_type" h4
  have h6 := WF_mapCol (fillnaV (.str "Uninsured")) "insurance_type" h5
  have h7 := WF_ageStep h6
  have h8 := WF_mapCol titleV "gender" h7
  simp only [patientsPre, standardize_missing]
  rw [colVals_mapCol_ne (by decide : "patient_id" ≠ "gender"),
    colVals_mapCol_self h8, colVals_mapCol_self h7,
    colVals_ageStep_ne (by decide),
    colVals_mapCol_ne (by decide : "insurance_type" ≠ "gender"),
    colVals_mapCol_ne (by decide : "insurance_type" ≠ "gender"),
    colVals_mapCol_ne (by decide : "city" ≠ "gender"),
    colVals_mapCol_self h2,
    colVals_mapCol_ne (by decide : "patient_name" ≠ "gender"),
    colVals_foldl_mapCol_self standardizeV (by decide) (by decide) h0,
    List.map_map, List.map_map, List.map_map]
  rfl

/-- On missing and string cells (the only gender shapes a CSV read
produces), the gender chain agrees with its closed normal form. -/
theorem genderChain_norm (v : Value) (hv : v = Value.na ∨ ∃ s, v = Value.str s) :
    genderWhereV (titleV (strStripV (standardizeV v))) = genderNorm v := by
  rcases hv with rfl | ⟨s, rfl⟩
  · rfl
  · by_cases ht : s ∈ nullTokens
    · simp [standardizeV, ht, strStripV, toStrV, titleV, genderWhereV, genderNorm]
    · by_cases h1 : stitle (sstrip s) = "Male"
      · simp [standardizeV, ht, strStripV, toStrV, titleV, genderWhereV, genderNorm, h1]
      · by_cases h2 : stitle (sstrip s) = "Female"
        · simp [standardizeV, ht, strStripV, toStrV, titleV, genderWhereV, genderNorm,
            h1, h2]
        · simp [standardizeV, ht, strStripV, toStrV, titleV, genderWhereV, genderNorm,
            h1, h2]

/-- Claim C10 (amended): cleaned gender is always one of Male, Female,
Unknown; pointwise, a missing cell, a null token, or any string whose
whitespace-trimmed title-casing is not Male or Female cleans to
Unknown, while strings whose trimmed title-casing is Male or Female
keep that value (so whitespace-padded casing variants survive). -/
theorem c10_gender_normalization :
    (∀ t, WF t → ∀ v ∈ colVals (clean_patients t) "gender",
      v = .str "Male" ∨ v = .str "Female" ∨ v = .str "Unknown") ∧
    (∀ t, WF t → ∀ (j : Nat) (v₀ : Value),
      (colVals (trimHeader t) "gender")[j]? = some v₀ →
      (v₀ = Value.na ∨ ∃ s, v₀ = Value.str s) →
      (colVals (patientsPre t) "gender")[j]? = some (genderNorm v₀)) := by
  constructor
  · intro t hwf v hv
    have hv1 : v ∈ colVals (patientsPre t) "gender" := colVals_dedupe_mem v hv
    rw [colVals_patientsPre_gender hwf] at hv1
    obtain ⟨u, _, rfl⟩ := List.mem_map.mp hv1
    exact genderWhereV_shape _
  · intro t hwf j v₀ hj hsh
    rw [colVals_patientsPre_gender hwf, List.getElem?_map, hj]
    simp [genderChain_norm v₀ hsh]

/-- Claim C10 as stated is false: the gender value " MALE " is not
missing, not a null token, and not a casing variant of Male or Female
(its lowercasing differs from both), yet the cleaned gender is "Male",
not "Unknown" — the cleaner trims whitespace before matching. -/
theorem c10_counterexample :
    colVals (clean_patients gPadEx) "gender" = [.str "Male"] ∧
    Value.str " MALE " ≠ Value.na ∧
    " MALE " ∉ nullTokens ∧
    slower " MALE " ≠ slower "Male" ∧
    slower " MALE " ≠ slower "Female" := by decide

theorem c10_witness :
    WF gMixW ∧
    (∀ v ∈ colVals (clean_patients gMixW) "gender",
      v = .str "Male" ∨ v = .str "Female" ∨ v = .str "Unknown") ∧
    (colVals (patientsPre gMixW) "gender")[0]? = some (genderNorm (Value.str "fEMALE")) :=
  ⟨by decide, c10_gender_normalization.1 gMixW (by decide),
    c10_gender_normalization.2 gMixW (by decide) 0 (Value.str "fEMALE") (by decide)
      (Or.inr ⟨_, rfl⟩)⟩

end HC

namespace HC

theorem colIdx_ne_some {c c' : String} {cs : List String} {i : Nat}
    (h : colIdx c cs = some i) (hne : c' ≠ c) : colIdx c' cs ≠ some i := by
  intro h'
  have g := colIdx_get h
  have g' := colIdx_get h'
  rw [g] at g'
  exact hne (Option.some.inj g').symm

/-- Row-level account of `rebuildComp`: each output row comes from an
input row with every non-target cell unchanged and the target cell (if
the column exists) recomputed from the source cell. -/
theorem rebuildComp_row {i : Nat} {c : String} {f : DateV → Value} {t : Table}
    (hwf : WF t) {r : List Value} (hr : r ∈ (rebuildComp i c f t).rows) :
    ∃ r₀ ∈ t.rows,
      (∀ j, colIdx c t.cols ≠ some j → getCell r j = getCell r₀ j) ∧
      (∀ j, colIdx c t.cols = some j →
        getCell r j = (match getCell r₀ i with
          | Value.date d => f d
          | _ => Value.na)) := by
  unfold rebuildComp at hr
  revert hr
  cases hc : colIdx c t.cols with
  | none =>
      intro hr
      exact ⟨r, hr, fun j _ => rfl, fun j hj => by cases hj⟩
  | some k =>
      intro hr
      simp only [List.mem_map] at hr
      obtain ⟨r₀, hr₀, rfl⟩ := hr
      refine ⟨r₀, hr₀, ?_, ?_⟩
      · intro j hj
        exact getCell_setCell_ne (fun hkj => hj (by rw [hkj])) _ _
      · intro j hj
        have hkj : k = j := Option.some.inj hj
        subst hkj
        exact getCell_setCell_self (by rw [hwf r₀ hr₀]; exact colIdx_lt_length hc) _

/-- Row-level account of `mapCol`: non-target cells are unchanged. -/
theorem getCell_mapCol_rows {f : Value → Value} {c : String} {t : Table}
    {r : List Value} (hr : r ∈ (mapCol f c t).rows) :
    ∃ r₀ ∈ t.rows, ∀ j, colIdx c t.cols ≠ some j → getCell r j = getCell r₀ j := by
  unfold mapCol at hr
  revert hr
  cases hc : colIdx c t.cols with
  | none =>
      intro hr
      exact ⟨r, hr, fun j _ => rfl⟩
  | some k =>
      intro hr
      simp only [List.mem_map] at hr
      obtain ⟨r₀, hr₀, rfl⟩ := hr
      exact ⟨r₀, hr₀, fun j hj =>
        getCell_setCell_ne (fun hkj => hj (by rw [hkj])) _ _⟩

/-- A binary cell invariant at two indices untouched by the rebuild
fold is preserved. -/
theorem foldl_rebuild_preserve {i j : Nat}
    {cps : List (String × (DateV → Value))} {t : Table} (hwf : WF t)
    (hnames : ∀ q ∈ cps, colIdx q.1 t.cols ≠ some i ∧ colIdx q.1 t.cols ≠ some j)
    {Q : Value → Value → Prop}
    (h : ∀ r ∈ t.rows, Q (getCell r i) (getCell r j)) :
    ∀ r ∈ (cps.foldl (fun t p => rebuildComp i p.1 p.2 t) t).rows,
      Q (getCell r i) (getCell r j) := by
  induction cps generalizing t with
  | nil => exact h
  | cons q qs ih =>
      rw [List.foldl_cons]
      refine ih (WF_rebuildComp _ _ _ hwf) ?_ ?_
      · intro q' hq'
        rw [cols_rebuildComp]
        exact hnames q' (List.mem_cons_of_mem _ hq')
      · intro r hr
        obtain ⟨r₀, hr₀, hpres, _⟩ := rebuildComp_row hwf hr
        rw [hpres i (hnames q (List.mem_cons_self _ _)).1,
          hpres j (hnames q (List.mem_cons_self _ _)).2]
        exact h r₀ hr₀

/-- After the rebuild fold, every component column listed equals its
derivation from the (unchanged) parsed date cell. -/
theorem foldl_rebuild_inv {i : Nat} {cps : List (String × (DateV → Value))}
    {t : Table} (hwf : WF t) (hdi : colIdx "date" t.cols = some i)
    (hnd : (cps.map Prod.fst).Nodup) (hnodate : ∀ q ∈ cps, q.1 ≠ "date")
    {p : String × (DateV → Value)} (hp : p ∈ cps) {j : Nat}
    (hj : colIdx p.1 t.cols = some j) :
    ∀ r ∈ (cps.foldl (fun t q => rebuildComp i q.1 q.2 t) t).rows,
      ∀ d, getCell r i = Value.date d → getCell r j = p.2 d := by
  induction cps generalizing t with
  | nil => simp at hp
  | cons q qs ih =>
      rw [List.foldl_cons]
      rcases List.mem_cons.mp hp with rfl | hp'
      · -- this rebuild establishes the invariant; the rest preserve it
        have hni : colIdx p.1 t.cols ≠ some i :=
          colIdx_ne_some hdi (hnodate p (List.mem_cons_self _ _))
        have hest : ∀ r ∈ (rebuildComp i p.1 p.2 t).rows,
            ∀ d, getCell r i = Value.date d → getCell r j = p.2 d := by
          intro r hr d hd
          obtain ⟨r₀, hr₀, hpres, hset⟩ := rebuildComp_row hwf hr
          rw [hpres i hni] at hd
          rw [hset j hj, hd]
        refine foldl_rebuild_preserve
          (Q := fun v w => ∀ d, v = Value.date d → w = p.2 d)
          (WF_rebuildComp _ _ _ hwf) ?_ hest
        intro q' hq'
        rw [cols_rebuildComp]
        constructor
        · exact colIdx_ne_some hdi (hnodate q' (List.mem_cons_of_mem _ hq'))
        · refine colIdx_ne_some hj (fun hqp => ?_)
          rw [List.map_cons, List.nodup_cons] at hnd
          exact hnd.1 (hqp ▸ List.mem_map_of_mem _ hq')
      · refine ih (WF_rebuildComp _ _ _ hwf) ?_ ?_ ?_ hp' ?_
        · rw [cols_rebuildComp]; exact hdi
        · exact (List.nodup_cons.mp (by simpa using hnd)).2
        · exact fun q' hq' => hnodate q' (List.mem_cons_of_mem _ hq')
        · rw [cols_rebuildComp]; exact hj

/-- Every key value of a table reappears in the key column after
single-key deduplication. -/
theorem colVals_dedupe_key_surj {t : Table} {k : String}
    (hk : hasCol k t = true) :
    ∀ v ∈ colVals t k, v ∈ colVals (dedupe t (some [k])) k := by
  unfold hasCol at hk
  cases hc : colIdx k t.cols with
  | none => simp [hc] at hk
  | some i =>
      intro v hv
      unfold colVals at hv
      rw [hc] at hv
      obtain ⟨r, hr, rfl⟩ := List.mem_map.mp hv
      rcases dedupAux_key_total (rowKey t (some [k])) [] t.rows r hr with habs | ⟨r', hr', hkey⟩
      · simp at habs
      · have hkr : getCell r' i = getCell r i := by
          have h1 : rowKey t (some [k]) r' = [getCell r' i] := by simp [rowKey, hc]
          have h2 : rowKey t (some [k]) r = [getCell r i] := by simp [rowKey, hc]
          rw [h1, h2] at hkey
          simpa using hkey
        have hcols : (dedupe t (some [k])).cols = t.cols := rfl
        unfold colVals
        rw [hcols, hc]
        rw [← hkr]
        exact List.mem_map_of_mem _ hr'

end HC

namespace HC

/-- Claim C5 (amended): with the `date` column present (at index `i` of
the standardized table), (i) every surviving row of date cleaning holds
a parsed date; (ii) every row whose raw date parses is represented in
the output by a row with that parsed date (rows are removed exactly
when the date fails to parse or duplicates an earlier parsed date);
(iii) the surviving dates are pairwise distinct — the deduplication by
`date` removes parseable duplicates, which the original claim missed;
(iv) in every surviving row each present component column (year, month,
day, quarter, day_name) equals the value derived from the parsed date,
whatever the input held there. -/
theorem c5_date_cleaning :
    ∀ df, WF df → ∀ i, colIdx "date" (datesStd df).cols = some i →
      (∀ r ∈ (clean_dates df).rows, ∃ d, getCell r i = Value.date d) ∧
      (∀ v₀ ∈ colVals (datesStd df) "date", toDatetimeV v₀ ≠ Value.na →
        toDatetimeV v₀ ∈ colVals (clean_dates df) "date") ∧
      (colVals (clean_dates df) "date").Nodup ∧
      (∀ r ∈ (clean_dates df).rows, ∀ d, getCell r i = Value.date d →
        ∀ p ∈ dateComps, ∀ j, colIdx p.1 (datesStd df).cols = some j →
          getCell r j = p.2 d) := by
  intro df hwf i hd
  have hwfs : WF (datesStd df) := WF_datesStd hwf
  have hcolseq : (clean_dates df).cols = (datesStd df).cols := by
    rw [cols_clean_dates, cols_datesStd]
  have hclean : ∀ u, hasCol "date" (datesPre u) = true →
      clean_dates u = dedupe (datesPre u) (some ["date"]) := by
    intro u hku
    simp only [clean_dates, hku, if_true]
  have hcolsPre : (datesPre df).cols = (datesStd df).cols := by
    rw [cols_datesPre, cols_datesStd]
  have hk1 : hasCol "date" (datesPre df) = true := by
    rw [hasCol_of_cols_eq hcolsPre]
    unfold hasCol
    rw [hd]
    rfl
  have heq1 := hclean df hk1
  have hblock : dateBlock (datesStd df)
      = dateComps.foldl (fun t p => rebuildComp i p.1 p.2 t)
          (⟨(mapCol toDatetimeV "date" (datesStd df)).cols,
            (mapCol toDatetimeV "date" (datesStd df)).rows.filter
              (fun r => getCell r i != Value.na)⟩ : Table) := by
    unfold dateBlock
    rw [hd]
  refine ⟨?_, ?_, ?_, ?_⟩
  · -- (i) survivors hold parsed dates
    intro r hr
    have hv : getCell r i ∈ colVals (clean_dates df) "date" := by
      unfold colVals
      rw [hcolseq, hd]
      exact List.mem_map_of_mem _ hr
    exact dates_col_parsed hwf _ hv
  · -- (ii) every parseable raw date is represented
    intro v₀ hv₀ hne
    have hi : colIdx "date" (datesStd df).cols = some i := hd
    unfold colVals at hv₀
    rw [hi] at hv₀
    obtain ⟨r₀, hr₀, rfl⟩ := List.mem_map.mp hv₀
    have hlen : i < r₀.length := by
      rw [hwfs r₀ hr₀]
      exact colIdx_lt_length hi
    -- the parsed row survives the filter
    have hr1 : setCell r₀ i (toDatetimeV (getCell r₀ i))
        ∈ (mapCol toDatetimeV "date" (datesStd df)).rows := by
      unfold mapCol
      rw [hi]
      exact List.mem_map_of_mem _ hr₀
    have hcell1 : getCell (setCell r₀ i (toDatetimeV (getCell r₀ i))) i
        = toDatetimeV (getCell r₀ i) := getCell_setCell_self hlen _
    have hr2 : setCell r₀ i (toDatetimeV (getCell r₀ i))
        ∈ ((mapCol toDatetimeV "date" (datesStd df)).rows.filter
            (fun r => getCell r i != Value.na)) := by
      rw [List.mem_filter]
      refine ⟨hr1, ?_⟩
      rw [hcell1]
      simpa using hne
    -- hence its date value is in the date block's date column
    have hv2 : toDatetimeV (getCell r₀ i)
        ∈ colVals (dateBlock (datesStd df)) "date" := by
      rw [hblock, colVals_foldl_rebuild_ne (by decide) _]
      unfold colVals
      simp only [cols_mapCol, hi]
      rw [← hcell1]
      exact List.mem_map_of_mem _ hr2
    have hv3 : toDatetimeV (getCell r₀ i) ∈ colVals (datesPre df) "date" := by
      unfold datesPre
      rw [colVals_mapCol_ne (by decide : "date_id" ≠ "date")]
      exact hv2
    rw [heq1]
    exact colVals_dedupe_key_surj hk1 _ hv3
  · -- (iii) surviving dates pairwise distinct
    rw [heq1]
    exact nodup_colVals_dedupe_key hk1
  · -- (iv) component columns recomputed from the parsed date
    intro r hr d hdate p hp j hj
    have hrPre : r ∈ (datesPre df).rows := by
      rw [heq1] at hr
      exact rows_dedupe_subset _ _ r hr
    unfold datesPre at hrPre
    obtain ⟨r₂, hr₂, hpres⟩ := getCell_mapCol_rows hrPre
    have hcolsBlock : (dateBlock (datesStd df)).cols = (datesStd df).cols :=
      cols_dateBlock _
    have hpi : getCell r i = getCell r₂ i := by
      refine hpres i ?_
      rw [hcolsBlock]
      exact colIdx_ne_some hd (by decide)
    have hpj : getCell r j = getCell r₂ j := by
      refine hpres j ?_
      rw [hcolsBlock]
      refine colIdx_ne_some hj ?_
      fin_cases hp <;> decide
    rw [hblock] at hr₂
    have hwf2 : WF (⟨(mapCol toDatetimeV "date" (datesStd df)).cols,
        (mapCol toDatetimeV "date" (datesStd df)).rows.filter
          (fun r => getCell r i != Value.na)⟩ : Table) := by
      intro r' hr'
      rw [List.mem_filter] at hr'
      exact WF_mapCol toDatetimeV "date" hwfs r' hr'.1
    have hinv := foldl_rebuild_inv hwf2
      (by simpa only [cols_mapCol] using hd)
      (by decide) (by decide) hp
      (by simpa only [cols_mapCol] using hj)
      r₂ hr₂ d (by rw [← hpi]; exact hdate)
    rw [hpj, hinv]

/-- Claim C5 as stated is false: in `datesDupEx` both raw dates parse,
yet only one row survives, because date cleaning also deduplicates by
parsed date.  The second half of the claim is visible on the survivor:
its stale `year` 1999 is recomputed to 2024. -/
theorem c5_counterexample :
    toDatetimeV (.str "2024-03-05") ≠ Value.na ∧
    (datesStd datesDupEx).rows.length = 2 ∧
    (clean_dates datesDupEx).rows.length = 1 ∧
    colVals (clean_dates datesDupEx) "year" = [.num 2024] := by decide

theorem c5_witness :
    WF datesMixedW ∧ colIdx "date" (datesStd datesMixedW).cols = some 0 ∧
    ((∀ r ∈ (clean_dates datesMixedW).rows, ∃ d, getCell r 0 = Value.date d) ∧
      (∀ v₀ ∈ colVals (datesStd datesMixedW) "date", toDatetimeV v₀ ≠ Value.na →
        toDatetimeV v₀ ∈ colVals (clean_dates datesMixedW) "date") ∧
      (colVals (clean_dates datesMixedW) "date").Nodup ∧
      (∀ r ∈ (clean_dates datesMixedW).rows, ∀ d, getCell r 0 = Value.date d →
        ∀ p ∈ dateComps, ∀ j, colIdx p.1 (datesStd datesMixedW).cols = some j →
          getCell r j = p.2 d)) :=
  ⟨by decide, by decide, c5_date_cleaning datesMixedW (by decide) 0 (by decide)⟩

end HC

namespace HC

/- Transform-stage lemmas: membership through the merges, in both
directions. -/

theorem mergeDiag_mem {l : List VisitDated} {diags : List DiagRow} {x : VisitDiag}
    (hx : x ∈ mergeDiag l diags) :
    ∃ w ∈ l, x.toVisitDated = w ∧ x.diagnosis_id ∈ diagIdsFor w.toVisitRow diags := by
  unfold mergeDiag at hx
  obtain ⟨w, hw, hxw⟩ := List.mem_flatMap.mp hx
  refine ⟨w, hw, ?_⟩
  unfold diagIdsFor
  revert hxw
  cases hms : diags.filter (fun d => d.diagnosis_code == w.diagnosis_code) with
  | nil =>
      intro hxw
      simp only [List.mem_singleton] at hxw
      subst hxw
      exact ⟨rfl, by simp⟩
  | cons m ms =>
      intro hxw
      obtain ⟨d, hd, rfl⟩ := List.mem_map.mp hxw
      exact ⟨rfl, List.mem_map_of_mem _ hd⟩

theorem mergeDiag_mem_of (diags : List DiagRow) {l : List VisitDated}
    {w : VisitDated} (hw : w ∈ l) :
    ∃ x ∈ mergeDiag l diags, x.toVisitDated = w ∧
      x.diagnosis_id ∈ diagIdsFor w.toVisitRow diags := by
  unfold mergeDiag diagIdsFor
  cases hms : diags.filter (fun d => d.diagnosis_code == w.diagnosis_code) with
  | nil =>
      refine ⟨{ toVisitDated := w, diagnosis_id := Value.na }, ?_, rfl, by simp⟩
      exact List.mem_flatMap.mpr ⟨w, hw, by rw [hms]; simp⟩
  | cons m ms =>
      refine ⟨{ toVisitDated := w, diagnosis_id := m.diagnosis_id }, ?_, rfl, ?_⟩
      · exact List.mem_flatMap.mpr ⟨w, hw, by rw [hms]; exact List.mem_map_of_mem _ (List.mem_cons_self _ _)⟩
      · exact List.mem_map_of_mem _ (List.mem_cons_self _ _)

theorem mergeDoc_mem {l : List VisitDiag} {docs : List DoctorRow} {y : VisitDoc}
    (hy : y ∈ mergeDoc l docs) : ∃ x ∈ l, y.toVisitDiag = x := by
  unfold mergeDoc at hy
  obtain ⟨x, hx, hyx⟩ := List.mem_flatMap.mp hy
  refine ⟨x, hx, ?_⟩
  revert hyx
  cases docs.filter (fun d => d.doctor_id == x.doctor_id) with
  | nil =>
      intro hyx
      simp only [List.mem_singleton] at hyx
      subst hyx
      rfl
  | cons m ms =>
      intro hyx
      obtain ⟨d, _, rfl⟩ := List.mem_map.mp hyx
      rfl

theorem mergeDoc_mem_of (docs : List DoctorRow) {l : List VisitDiag}
    {x : VisitDiag} (hx : x ∈ l) :
    ∃ y ∈ mergeDoc l docs, y.toVisitDiag = x := by
  unfold mergeDoc
  cases hms : docs.filter (fun d => d.doctor_id == x.doctor_id) with
  | nil =>
      exact ⟨{ toVisitDiag := x, department_name_doc := Value.na },
        List.mem_flatMap.mpr ⟨x, hx, by rw [hms]; simp⟩, rfl⟩
  | cons m ms =>
      exact ⟨{ toVisitDiag := x, department_name_doc := m.department_name },
        List.mem_flatMap.mpr ⟨x, hx, by rw [hms]; exact List.mem_map_of_mem _ (List.mem_cons_self _ _)⟩, rfl⟩

theorem mergeDept_mem {l : List VisitDoc} {deps : List DeptRow} {z : VisitDept}
    (hz : z ∈ mergeDept l deps) :
    ∃ y ∈ l, z.toVisitDoc = y ∧ z.department_id ∈ deptIdsFor y.toVisitRow deps := by
  unfold mergeDept at hz
  obtain ⟨y, hy, hzy⟩ := List.mem_flatMap.mp hz
  refine ⟨y, hy, ?_⟩
  unfold deptIdsFor
  revert hzy
  cases hms : deps.filter (fun d => d.department_name == y.department_name) with
  | nil =>
      intro hzy
      simp only [List.mem_singleton] at hzy
      subst hzy
      exact ⟨rfl, by simp⟩
  | cons m ms =>
      intro hzy
      obtain ⟨d, hd, rfl⟩ := List.mem_map.mp hzy
      exact ⟨rfl, List.mem_map_of_mem _ hd⟩

theorem mergeDept_mem_of (deps : List DeptRow) {l : List VisitDoc}
    {y : VisitDoc} (hy : y ∈ l) :
    ∃ z ∈ mergeDept l deps, z.toVisitDoc = y ∧
      z.department_id ∈ deptIdsFor y.toVisitRow deps := by
  unfold mergeDept deptIdsFor
  cases hms : deps.filter (fun d => d.department_name == y.department_name) with
  | nil =>
      refine ⟨{ toVisitDoc := y, department_id := Value.na }, ?_, rfl, by simp⟩
      exact List.mem_flatMap.mpr ⟨y, hy, by rw [hms]; simp⟩
  | cons m ms =>
      refine ⟨{ toVisitDoc := y, department_id := m.department_id }, ?_, rfl, ?_⟩
      · exact List.mem_flatMap.mpr ⟨y, hy, by rw [hms]; exact List.mem_map_of_mem _ (List.mem_cons_self _ _)⟩
      · exact List.mem_map_of_mem _ (List.mem_cons_self _ _)

/-- Every visit produces at least one fact row, whose visit-carried
fields are unchanged, whose `date_id` is derived from `visit_date`,
whose `diagnosis_id` comes from matching the visit's diagnosis code
(missing when unmatched), and whose `department_id` comes from matching
the visit's own `department_name` (missing when unmatched). -/
theorem exists_fact_row (visits : List VisitRow) (diags : List DiagRow)
    (docs : List DoctorRow) (deps : List DeptRow) (v : VisitRow) (hv : v ∈ visits) :
    ∃ r ∈ transform_fact visits diags docs deps,
      r.visit_id = v.visit_id ∧ r.patient_id = v.patient_id ∧
      r.doctor_id = v.doctor_id ∧ r.visit_type = v.visit_type ∧
      r.visit_duration_days = v.visit_duration_days ∧
      r.total_cost = v.total_cost ∧ r.insurance_coverage = v.insurance_coverage ∧
      r.patient_payment = v.patient_payment ∧
      r.satisfaction_rating = v.satisfaction_rating ∧
      r.date_id = makeDateId v.visit_date ∧
      r.diagnosis_id ∈ diagIdsFor v diags ∧
      r.department_id ∈ deptIdsFor v deps := by
  have hw : ({ toVisitRow := v, date_id := makeDateId v.visit_date } : VisitDated)
      ∈ withDateId visits := List.mem_map_of_mem _ hv
  obtain ⟨x, hx, hxw, hxdiag⟩ := mergeDiag_mem_of diags hw
  obtain ⟨y, hy, hyx⟩ := mergeDoc_mem_of docs hx
  obtain ⟨z, hz, hzy, hzdept⟩ := mergeDept_mem_of deps hy
  refine ⟨_, List.mem_map_of_mem _ hz, ?_⟩
  have hzx : z.toVisitDiag = x := by rw [hzy, hyx]
  have hzw : z.toVisitDated = ({ toVisitRow := v, date_id := makeDateId v.visit_date } : VisitDated) := by
    rw [show z.toVisitDated = z.toVisitDiag.toVisitDated from rfl, hzx, hxw]
  have hzv : z.toVisitRow = v := by
    rw [show z.toVisitRow = z.toVisitDated.toVisitRow from rfl, hzw]
  refine ⟨?_, ?_, ?_, ?_, ?_, ?_, ?_, ?_, ?_, ?_, ?_, ?_⟩
  · exact congrArg VisitRow.visit_id hzv
  · exact congrArg VisitRow.patient_id hzv
  · exact congrArg VisitRow.doctor_id hzv
  · exact congrArg VisitRow.visit_type hzv
  · exact congrArg VisitRow.visit_duration_days hzv
  · exact congrArg VisitRow.total_cost hzv
  · exact congrArg VisitRow.insurance_coverage hzv
  · exact congrArg VisitRow.patient_payment hzv
  · exact congrArg VisitRow.satisfaction_rating hzv
  · exact congrArg VisitDated.date_id hzw
  · have hzd : z.diagnosis_id = x.diagnosis_id := congrArg VisitDiag.diagnosis_id hzx
    rw [hzd]
    exact hxdiag
  · have hyv : y.toVisitRow = v := by
      rw [← hzy]
      exact hzv
    rwa [hyv] at hzdept

/-- Every fact row originates from a visit whose carried fields it
reproduces, with `department_id` drawn from the visit's own
`department_name` lookup. -/
theorem fact_row_sound (visits : List VisitRow) (diags : List DiagRow)
    (docs : List DoctorRow) (deps : List DeptRow) :
    ∀ r ∈ transform_fact visits diags docs deps,
      ∃ v ∈ visits, r.visit_id = v.visit_id ∧ r.doctor_id = v.doctor_id ∧
        r.date_id = makeDateId v.visit_date ∧
        r.diagnosis_id ∈ diagIdsFor v diags ∧
        r.department_id ∈ deptIdsFor v deps := by
  intro r hr
  unfold transform_fact projectFact at hr
  obtain ⟨z, hz, rfl⟩ := List.mem_map.mp hr
  obtain ⟨y, hy, hzy, hzdept⟩ := mergeDept_mem hz
  obtain ⟨x, hx, hyx⟩ := mergeDoc_mem hy
  obtain ⟨w, hw, hxw, hxdiag⟩ := mergeDiag_mem hx
  unfold withDateId at hw
  obtain ⟨v, hv, rfl⟩ := List.mem_map.mp hw
  have hzx : z.toVisitDiag = x := by rw [hzy, hyx]
  have hzw : z.toVisitDated = ({ toVisitRow := v, date_id := makeDateId v.visit_date } : VisitDated) := by
    rw [show z.toVisitDated = z.toVisitDiag.toVisitDated from rfl, hzx, hxw]
  have hzv : z.toVisitRow = v := by
    rw [show z.toVisitRow = z.toVisitDated.toVisitRow from rfl, hzw]
  refine ⟨v, hv, congrArg VisitRow.visit_id hzv, congrArg VisitRow.doctor_id hzv,
    congrArg VisitDated.date_id hzw, ?_, ?_⟩
  · have hzd : z.diagnosis_id = x.diagnosis_id := congrArg VisitDiag.diagnosis_id hzx
    rw [hzd]
    exact hxdiag
  · have hyv : y.toVisitRow = v := by
      rw [← hzy]
      exact hzv
    rwa [hyv] at hzdept

end HC

namespace HC

/-- Claim C3 (amended): `department_id` of every emitted fact row is
resolved in one hop from the visit's own `department_name` against the
department dimension — the doctor join only contributes the suffixed,
projected-away `department_name_doc` column — and visits with no match
get a missing `department_id` rather than being dropped. -/
theorem c3_department_resolution :
    (∀ visits diags docs deps, ∀ r ∈ transform_fact visits diags docs deps,
      ∃ v ∈ visits, r.visit_id = v.visit_id ∧ r.doctor_id = v.doctor_id ∧
        r.date_id = makeDateId v.visit_date ∧
        r.diagnosis_id ∈ diagIdsFor v diags ∧
        r.department_id ∈ deptIdsFor v deps) ∧
    (∀ visits diags docs deps (v : VisitRow), v ∈ visits →
      ∃ r ∈ transform_fact visits diags docs deps,
        r.visit_id = v.visit_id ∧ r.doctor_id = v.doctor_id ∧
        r.department_id ∈ deptIdsFor v deps) := by
  constructor
  · exact fact_row_sound
  · intro visits diags docs deps v hv
    obtain ⟨r, hr, h1, _, h3, _, _, _, _, _, _, _, _, h12⟩ :=
      exists_fact_row visits diags docs deps v hv
    exact ⟨r, hr, h1, h3, h12⟩

/-- Claim C3 as stated is false: on a visit whose own department name
(Surgery, id 10) differs from its doctor's department (Cardiology,
id 20), the fact row carries department_id 10 — resolved from the
visit's own column — while the spec's two-hop resolution through the
doctor would give 20. -/
theorem c3_counterexample :
    (transform_fact [vHop] [] [docHop] [depSurgery, depCardio]).map
        (fun r => r.department_id) = [Value.num 10] ∧
    twoHopDeptId vHop [docHop] [depSurgery, depCardio] = Value.num 20 ∧
    Value.num 10 ≠ Value.num 20 := by decide

theorem c3_witness :
    vHop ∈ [vHop] ∧
    (∃ r ∈ transform_fact [vHop] [] [docHop] [depSurgery, depCardio],
      r.visit_id = vHop.visit_id ∧ r.doctor_id = vHop.doctor_id ∧
      r.department_id ∈ deptIdsFor vHop [depSurgery, depCardio]) :=
  ⟨by decide, c3_department_resolution.2 [vHop] [] [docHop] [depSurgery, depCardio]
    vHop (by decide)⟩

/-- Claim C6: a visit whose diagnosis code matches no dimension row
yields a fact row with missing `diagnosis_id`, all visit-carried
fields unchanged and the derived `date_id` intact; the row is not
dropped (and the embedding is total, so no error can be raised). -/
theorem c6_orphan_diagnosis :
    ∀ visits diags docs deps (v : VisitRow), v ∈ visits →
      diags.filter (fun d => d.diagnosis_code == v.diagnosis_code) = [] →
      ∃ r ∈ transform_fact visits diags docs deps,
        r.diagnosis_id = Value.na ∧ r.visit_id = v.visit_id ∧
        r.patient_id = v.patient_id ∧ r.doctor_id = v.doctor_id ∧
        r.visit_type = v.visit_type ∧
        r.visit_duration_days = v.visit_duration_days ∧
        r.total_cost = v.total_cost ∧
        r.insurance_coverage = v.insurance_coverage ∧
        r.patient_payment = v.patient_payment ∧
        r.satisfaction_rating = v.satisfaction_rating ∧
        r.date_id = makeDateId v.visit_date := by
  intro visits diags docs deps v hv hnone
  obtain ⟨r, hr, h1, h2, h3, h4, h5, h6, h7, h8, h9, h10, h11, _⟩ :=
    exists_fact_row visits diags docs deps v hv
  refine ⟨r, hr, ?_, h1, h2, h3, h4, h5, h6, h7, h8, h9, h10⟩
  unfold diagIdsFor at h11
  rw [hnone] at h11
  simpa using h11

theorem c6_witness :
    vOrphan ∈ [vOrphan] ∧
    [diagI10].filter (fun d => d.diagnosis_code == vOrphan.diagnosis_code) = [] ∧
    (∃ r ∈ transform_fact [vOrphan] [diagI10] [docHop] [depSurgery],
      r.diagnosis_id = Value.na ∧ r.visit_id = vOrphan.visit_id ∧
      r.patient_id = vOrphan.patient_id ∧ r.doctor_id = vOrphan.doctor_id ∧
      r.visit_type = vOrphan.visit_type ∧
      r.visit_duration_days = vOrphan.visit_duration_days ∧
      r.total_cost = vOrphan.total_cost ∧
      r.insurance_coverage = vOrphan.insurance_coverage ∧
      r.patient_payment = vOrphan.patient_payment ∧
      r.satisfaction_rating = vOrphan.satisfaction_rating ∧
      r.date_id = makeDateId vOrphan.visit_date) :=
  ⟨by decide, by decide,
    c6_orphan_diagnosis [vOrphan] [diagI10] [docHop] [depSurgery] vOrphan
      (by decide) (by decide)⟩

theorem projectCols_ok {t : Table} {cs : List String} {u : Table}
    (h : projectCols t cs = .ok u) : ∀ c ∈ cs, hasCol c t = true := by
  unfold projectCols at h
  revert h
  cases hf : cs.find? (fun c => !(hasCol c t)) with
  | some c => intro h; cases h
  | none =>
      intro _ c hc
      have := List.find?_eq_none.mp hf c hc
      simpa using this

/-- Claim C2 (amended): if any required column is absent from any of
the five cleaned tables, the whole dimension build yields an error —
nothing is produced for any entity, because the source has no
per-table exception handling and saves only after all projections. -/
theorem c2_missing_column_aborts :
    ∀ pat doc dep diag dts,
      ((∃ c ∈ dimPatientCols, hasCol c pat = false) ∨
       (∃ c ∈ dimDoctorCols, hasCol c doc = false) ∨
       (∃ c ∈ dimDepartmentCols, hasCol c dep = false) ∨
       (∃ c ∈ dimDiagnosisCols, hasCol c diag = false) ∨
       (∃ c ∈ dimDateCols, hasCol c dts = false)) →
      ∃ s, transform_dimensions pat doc dep diag dts = .error s := by
  intro pat doc dep diag dts hmiss
  cases hp : projectCols pat dimPatientCols with
  | error e => exact ⟨e, by simp [transform_dimensions, hp, Bind.bind, Except.bind, Functor.map, Except.map]⟩
  | ok p =>
      cases hq : projectCols doc dimDoctorCols with
      | error e => exact ⟨e, by simp [transform_dimensions, hp, hq, Bind.bind, Except.bind, Functor.map, Except.map]⟩
      | ok q =>
          cases hr : projectCols dep dimDepartmentCols with
          | error e => exact ⟨e, by simp [transform_dimensions, hp, hq, hr, Bind.bind, Except.bind, Functor.map, Except.map]⟩
          | ok r =>
              cases hs : projectCols diag dimDiagnosisCols with
              | error e => exact ⟨e, by simp [transform_dimensions, hp, hq, hr, hs, Bind.bind, Except.bind, Functor.map, Except.map]⟩
              | ok s =>
                  cases ht : projectCols dts dimDateCols with
                  | error e =>
                      exact ⟨e, by
                        simp [transform_dimensions, hp, hq, hr, hs, ht, Bind.bind,
                          Except.bind, Functor.map, Except.map]⟩
                  | ok u =>
                      exfalso
                      rcases hmiss with ⟨c, hc, hf⟩ | ⟨c, hc, hf⟩ | ⟨c, hc, hf⟩ |
                        ⟨c, hc, hf⟩ | ⟨c, hc, hf⟩
                      · rw [projectCols_ok hp c hc] at hf; cases hf
                      · rw [projectCols_ok hq c hc] at hf; cases hf
                      · rw [projectCols_ok hr c hc] at hf; cases hf
                      · rw [projectCols_ok hs c hc] at hf; cases hf
                      · rw [projectCols_ok ht c hc] at hf; cases hf

/-- Claim C2 as stated is false: with the patients table missing only
its `gender` column and all four other tables fully well-formed, the
dimension builder raises on the patients projection and produces no
dimension table at all — it does not continue with the independent
entities, whose projections would each have succeeded. -/
theorem c2_counterexample :
    transform_dimensions patNoGenderEx docFullEx depFullEx diagFullEx datesFullEx
      = .error "gender" ∧
    projectCols docFullEx dimDoctorCols = .ok ⟨dimDoctorCols, []⟩ ∧
    projectCols depFullEx dimDepartmentCols = .ok ⟨dimDepartmentCols, []⟩ ∧
    projectCols diagFullEx dimDiagnosisCols = .ok ⟨dimDiagnosisCols, []⟩ ∧
    projectCols datesFullEx dimDateCols = .ok ⟨dimDateCols, []⟩ := by decide

theorem c2_witness :
    (∃ c ∈ dimPatientCols, hasCol c patNoGenderEx = false) ∧
    (∃ s, transform_dimensions patNoGenderEx docFullEx depFullEx diagFullEx
      datesFullEx = .error s) :=
  ⟨⟨"gender", by decide, by decide⟩,
    c2_missing_column_aborts patNoGenderEx docFullEx depFullEx diagFullEx
      datesFullEx (Or.inl ⟨"gender", by decide, by decide⟩)⟩

end HC
